import Mathlib

/-
Verification of the DAG engine in app/etl/dag.py (healthcare-etl-pipeline).

The embedding below is a shallow translation of the Python source:
  * Python dicts with string keys become insertion-ordered association
    lists (`Ctx`), with `dict.update` / single-key writes modelled by
    `dictUpdate` / `dictInsert`.
  * The task table `self.tasks : dict[str, TaskNode]` becomes a
    `List (TaskNode V)`; a Python dict cannot hold two entries under one
    key, so theorems carry the corresponding `Nodup` hypothesis on names.
  * A task's callable is a function `Ctx V → Except String (Option (Ctx V))`:
    a raised exception is `.error (str exc)`, a normal return is `.ok`,
    with `none` standing for a falsy return value (the run loop turns it
    into the empty dict, mirroring `execute_fn(context) or {}`).
  * Raised ValueErrors become the inductive `DagError`.
  * Wall-clock timing (`time.perf_counter`) is outside the model; the
    run loop records a duration of 0.
-/

namespace EtlDag

/-- Execution status of a task node (class TaskStatus, dag.py lines 25-30). -/
inductive TaskStatus where
  | pending
  | running
  | success
  | failed
  | skipped
deriving DecidableEq

/-- String payload of the str-valued enum members. -/
def TaskStatus.value : TaskStatus → String
  | .pending => "pending"
  | .running => "running"
  | .success => "success"
  | .failed => "failed"
  | .skipped => "skipped"

/-- Insertion-ordered association list standing for a Python dict
with string keys. -/
abbrev Ctx (V : Type) := List (String × V)

/-- Write one key: overwrite in place when the key exists, else append
(the update rule of a Python dict). -/
def dictInsert {V : Type} (d : Ctx V) (k : String) (v : V) : Ctx V :=
  if d.any (fun p => decide (p.1 = k)) then
    d.map (fun p => if p.1 = k then (k, v) else p)
  else d ++ [(k, v)]

/-- Model of `d.update(other)`: fold the right dict into the left one. -/
def dictUpdate {V : Type} (d other : Ctx V) : Ctx V :=
  other.foldl (fun acc p => dictInsert acc p.1 p.2) d

/-- Key membership in a modelled dict. -/
def hasKey {V : Type} (d : Ctx V) (k : String) : Bool :=
  d.any (fun p => decide (p.1 = k))

/-- A single unit of work inside a DAG (dataclass TaskNode, dag.py
lines 33-43), with the dataclass defaults pending / empty dict / no
error / zero duration. -/
structure TaskNode (V : Type) where
  name : String
  execute_fn : Ctx V → Except String (Option (Ctx V))
  depends_on : List String
  status : TaskStatus
  result : Ctx V
  error : Option String
  duration_ms : Nat

/-- Build a fresh node the way `add_task` does: only name, callable and
dependency list are supplied, the state fields take the defaults. -/
def mkTask {V : Type} (name : String)
    (execute_fn : Ctx V → Except String (Option (Ctx V)))
    (depends_on : List String) : TaskNode V :=
  ⟨name, execute_fn, depends_on, .pending, [], none, 0⟩

/-- The DAG object: a pipeline name plus the task table (class DAG,
dag.py lines 46-61).  The list keeps the dict insertion order. -/
structure DAG (V : Type) where
  name : String
  tasks : List (TaskNode V)

/-- The ValueErrors raised by the engine, distinguished by their message:
duplicate task name (add_task), unknown dependency and cycle detection
(both in the topological sort). -/
inductive DagError where
  | duplicateTask (name : String)
  | unknownDependency (taskName dep : String)
  | cycle
deriving DecidableEq

/-- DAG.add_task (dag.py lines 63-74): reject an existing name, otherwise
append a fresh node to the task table. -/
def DAG.add_task {V : Type} (g : DAG V) (name : String)
    (execute_fn : Ctx V → Except String (Option (Ctx V)))
    (depends_on : List String) : Except DagError (DAG V) :=
  if g.tasks.any (fun t => decide (t.name = name)) then
    .error (.duplicateTask name)
  else
    .ok ⟨g.name, g.tasks ++ [mkTask name execute_fn depends_on]⟩

/-- Names of the task table, in insertion order (the dict keys). -/
def taskNames {V : Type} (tasks : List (TaskNode V)) : List String :=
  tasks.map (fun t => t.name)

/-- Increment one counter of the in-degree table. -/
def bump (f : String → Int) (n : String) : String → Int :=
  fun m => if m = n then f m + 1 else f m

/-- Inner loop of the in-degree computation (dag.py lines 79-85): walk one
task's dependency list; a name with no matching task raises, every entry
adds one to the in-degree of the task that declares it. -/
def addTaskDegrees {V : Type} (tasks : List (TaskNode V)) (t : TaskNode V) :
    List String → (String → Int) → Except DagError (String → Int)
  | [], f => .ok f
  | d :: ds, f =>
    if tasks.any (fun u => decide (u.name = d)) then
      addTaskDegrees tasks t ds (bump f t.name)
    else
      .error (.unknownDependency t.name d)

/-- Outer loop of the in-degree computation, over all tasks in table
order.  The first argument is the full table (used for membership
checks), the second the still unprocessed suffix. -/
def buildInDegrees {V : Type} (tasks : List (TaskNode V)) :
    List (TaskNode V) → (String → Int) → Except DagError (String → Int)
  | [], f => .ok f
  | t :: ts, f =>
    match addTaskDegrees tasks t t.depends_on f with
    | .ok f2 => buildInDegrees tasks ts f2
    | .error e => .error e

/-- Body of the inner for-loop of Kahn's algorithm (dag.py lines 93-97):
when the just-emitted node occurs in a task's dependency list, that
task's in-degree drops by one; a task reaching zero joins the back of
the ready queue. -/
def decStep {V : Type} (current : String)
    (s : (String → Int) × List String) (t : TaskNode V) :
    (String → Int) × List String :=
  if current ∈ t.depends_on then
    let d := s.1 t.name - 1
    let f := fun m => if m = t.name then d else s.1 m
    if d = 0 then (f, s.2 ++ [t.name]) else (f, s.2)
  else s

/-- The while-loop of Kahn's algorithm (dag.py lines 90-97).  Python runs
`while queue:`; every node enters the queue at most once, so the loop
makes at most `tasks.length` iterations — the fuel argument is
instantiated with exactly that bound, and kahnLoop_inv below shows the
queue always drains within it, so the bounded recursion coincides with
the unbounded loop.  Returns the emitted order and the final queue. -/
def kahnLoop {V : Type} (tasks : List (TaskNode V)) :
    Nat → List String → (String → Int) → List String →
    List String × List String
  | 0, queue, _, order => (order, queue)
  | _ + 1, [], _, order => (order, [])
  | fuel + 1, current :: rest, f, order =>
    let s := tasks.foldl (decStep current) (f, rest)
    kahnLoop tasks fuel s.2 s.1 (order ++ [current])

/-- DAG._topological_sort (dag.py lines 76-101): build the in-degree
table (raising on an unknown dependency), seed the queue with the
zero-degree tasks in table order, run Kahn's loop, and raise when the
emitted order misses some node. -/
def DAG.topological_sort {V : Type} (g : DAG V) :
    Except DagError (List String) :=
  match buildInDegrees g.tasks g.tasks (fun _ => 0) with
  | .error e => .error e
  | .ok f =>
    let queue := (g.tasks.filter (fun t => decide (f t.name = 0))).map
      (fun t => t.name)
    let p := kahnLoop g.tasks g.tasks.length queue f []
    if p.1.length = g.tasks.length then .ok p.1 else .error .cycle

/-- Dict lookup in the task table (`self.tasks[name]`). -/
def findTask {V : Type} (tasks : List (TaskNode V)) (n : String) :
    Option (TaskNode V) :=
  tasks.find? (fun t => decide (t.name = n))

/-- Status of the task registered under a name.  The run loop only
consults names the scheduler has verified, so the default branch is
unreachable there. -/
def statusOf {V : Type} (tasks : List (TaskNode V)) (n : String) : TaskStatus :=
  match findTask tasks n with
  | some t => t.status
  | none => .pending

/-- Result dict of the task registered under a name (same remark). -/
def resultOf {V : Type} (tasks : List (TaskNode V)) (n : String) : Ctx V :=
  match findTask tasks n with
  | some t => t.result
  | none => []

/-- In-place mutation of the node registered under a name. -/
def setTask {V : Type} (tasks : List (TaskNode V)) (n : String)
    (t2 : TaskNode V) : List (TaskNode V) :=
  tasks.map (fun t => if t.name = n then t2 else t)

/-- One entry of `summary["tasks"]`: a skipped task records only its
status, an executed one records status string, rounded duration and the
node's error field. -/
inductive SummaryEntry where
  | skippedEntry
  | ranEntry (status : String) (duration_ms : Nat) (error : Option String)
deriving DecidableEq

/-- The run summary dict (pipeline name, per-task entries in execution
order, overall status string). -/
structure RunSummary where
  pipeline : String
  taskEntries : List (String × SummaryEntry)
  status : String
deriving DecidableEq

/-- Merge of the upstream results into the shared context (dag.py lines
127-129): fold the result dict of each direct dependency, in declared
order, into the running context. -/
def mergedContext {V : Type} (tasks : List (TaskNode V)) (context : Ctx V)
    (task : TaskNode V) : Ctx V :=
  task.depends_on.foldl (fun c dep => dictUpdate c (resultOf tasks dep)) context

/-- Body of the run loop for one scheduled task name (dag.py lines
114-149).  If some direct dependency has FAILED status the task is
skipped without invoking its callable; otherwise the dependencies'
results are merged into the shared context, the callable runs on it, and
the outcome (success with a result dict, or a contained fault) is
recorded on the node and in the summary.  Durations are modelled as 0. -/
def runStep {V : Type} (tasks : List (TaskNode V)) (context : Ctx V)
    (entries : List (String × SummaryEntry)) (task_name : String) :
    List (TaskNode V) × Ctx V × List (String × SummaryEntry) :=
  match findTask tasks task_name with
  | none => (tasks, context, entries)
  | some task =>
    if task.depends_on.any (fun dep => decide (statusOf tasks dep = .failed)) then
      (setTask tasks task_name
          ⟨task.name, task.execute_fn, task.depends_on, .skipped,
            task.result, task.error, task.duration_ms⟩,
        context,
        entries ++ [(task_name, .skippedEntry)])
    else
      let context2 := mergedContext tasks context task
      match task.execute_fn context2 with
      | .ok r =>
        (setTask tasks task_name
            ⟨task.name, task.execute_fn, task.depends_on, .success,
              r.getD [], task.error, 0⟩,
          context2,
          entries ++ [(task_name, .ranEntry TaskStatus.success.value 0 task.error)])
      | .error e =>
        (setTask tasks task_name
            ⟨task.name, task.execute_fn, task.depends_on, .failed,
              task.result, some e, 0⟩,
          context2,
          entries ++ [(task_name, .ranEntry TaskStatus.failed.value 0 (some e))])

/-- The for-loop of DAG.run over the scheduled order, threading the task
table, the shared context and the accumulated summary entries. -/
def runLoop {V : Type} :
    List String → List (TaskNode V) → Ctx V →
    List (String × SummaryEntry) →
    List (TaskNode V) × Ctx V × List (String × SummaryEntry)
  | [], tasks, context, entries => (tasks, context, entries)
  | n :: rest, tasks, context, entries =>
    let s := runStep tasks context entries n
    runLoop rest s.1 s.2.1 s.2.2

/-- DAG.run (dag.py lines 103-154).  The Python method mutates
`self.tasks` in place and returns the summary dict, and a scheduling
error propagates before the loop touches anything; this is modelled by
returning the outcome together with the post-state of the DAG. -/
def DAG.run {V : Type} (g : DAG V) (initial_context : Ctx V) :
    Except DagError RunSummary × DAG V :=
  match g.topological_sort with
  | .error e => (.error e, g)
  | .ok execution_order =>
    let s := runLoop execution_order g.tasks initial_context []
    let all_success := s.1.all (fun t => decide (t.status = .success))
    (.ok ⟨g.name, s.2.2, if all_success then "completed" else "failed"⟩,
      ⟨g.name, s.1⟩)

/-- The serialized DAG definition: name plus each task's declared
dependency list. -/
structure DagDefinition where
  name : String
  taskDeps : List (String × List String)
deriving DecidableEq

/-- DAG.to_dict (dag.py lines 156-164). -/
def DAG.to_dict {V : Type} (g : DAG V) : DagDefinition :=
  ⟨g.name, g.tasks.map (fun t => (t.name, t.depends_on))⟩

/-- Build-time structure of one node: its name and declared dependency
list — exactly what distinguishes scheduling-relevant data from run
state and callables. -/
def structureProj {V : Type} (t : TaskNode V) : String × List String :=
  (t.name, t.depends_on)

/-- Nodes agreeing on everything except the callable: used to express
that an operation never invokes any task logic. -/
def sameButFn {V : Type} (a b : TaskNode V) : Prop :=
  a.name = b.name ∧ a.depends_on = b.depends_on ∧ a.status = b.status ∧
    a.result = b.result ∧ a.error = b.error ∧ a.duration_ms = b.duration_ms

/-- The dependency relation of a graph: `a` depends directly on `b`. -/
def DAG.dependsOn {V : Type} (g : DAG V) (a b : String) : Prop :=
  ∃ t ∈ g.tasks, t.name = a ∧ b ∈ t.depends_on

/-- Acyclicity of the dependency relation: no nonempty dependency path
from a node back to itself. -/
def DAG.Acyclic {V : Type} (g : DAG V) : Prop :=
  ∀ a, ¬ Relation.TransGen g.dependsOn a a

/-- A dependency name resolves when some task carries it. -/
def DAG.resolves {V : Type} (g : DAG V) (d : String) : Prop :=
  ∃ t ∈ g.tasks, t.name = d

/-- Every dependency of every task resolves. -/
def DAG.allDepsResolve {V : Type} (g : DAG V) : Prop :=
  ∀ t ∈ g.tasks, ∀ d ∈ t.depends_on, g.resolves d

/-- All dependencies of the task registered under a name lie in `seen`:
the ordering guarantee of the scheduler, stated over a prefix of the
emitted order. -/
def depsDone {V : Type} (tasks : List (TaskNode V)) (seen : List String)
    (n : String) : Prop :=
  ∀ t ∈ tasks, t.name = n → ∀ d ∈ t.depends_on, d ∈ seen

/-- Concrete three-task chain a → b → c in which the first task raises:
the failure-propagation scenario of the spec. -/
def gChain : DAG Nat := ⟨"chain",
  [ mkTask "a" (fun _ => .error "boom") [],
    mkTask "b" (fun _ => .ok (some [("kb", 2)])) ["a"],
    mkTask "c" (fun _ => .ok (some [("kc", 3)])) ["b"] ]⟩

/-- Concrete acyclic graph whose second task lists the same dependency
twice.  Its dependency relation has the single edge b → a. -/
def gDupDep : DAG Nat := ⟨"dup",
  [ mkTask "a" (fun _ => .ok none) [],
    mkTask "b" (fun _ => .ok none) ["a", "a"] ]⟩

/-- Concrete two-task cycle. -/
def gCycle : DAG Nat := ⟨"cyc",
  [ mkTask "a" (fun _ => .ok none) ["b"],
    mkTask "b" (fun _ => .ok none) ["a"] ]⟩

/-- Concrete graph whose only task names a dependency that no task
carries. -/
def gUnknown : DAG Nat := ⟨"unk",
  [ mkTask "a" (fun _ => .ok none) ["ghost"] ]⟩

/-- Concrete linear graph used to observe the shared run context: task c
depends only on b, while a publishes the key "ka"; c's callable returns
the context it receives, so its stored result is exactly the mapping the
run passed to it. -/
def gObserve : DAG Nat := ⟨"obs",
  [ mkTask "a" (fun _ => .ok (some [("ka", 1)])) [],
    mkTask "b" (fun _ => .ok (some [])) ["a"],
    mkTask "c" (fun c => .ok (some c)) ["b"] ]⟩

/-- Plain two-task graph (y after x) used as a generic witness input. -/
def gPair : DAG Nat := ⟨"pair",
  [ mkTask "x" (fun _ => .ok (some [("kx", 1)])) [],
    mkTask "y" (fun _ => .ok none) ["x"] ]⟩

/-- Invariant of the Kahn loop state, relating the in-degree table `f`,
the ready queue and the emitted order.  `nodup`/`subset`: a node enters
order or queue at most once and only task names do; `posUntouched`: a
node not yet seen keeps a positive counter; `nonposTouched`: a seen
node's counter has been spent; `sorted`/`ready`: every emitted or queued
node has all its dependencies emitted (before it); `degGe`/`degLe`: the
counter of each task bounds the number of its not-yet-emitted
dependency entries (an equality when its dependency list has no
duplicates — with duplicates the counter can stay strictly larger,
which is exactly the spurious-cycle behaviour refuting C1). -/
structure KahnInv {V : Type} (tasks : List (TaskNode V)) (f : String → Int)
    (queue order : List String) : Prop where
  nodup : (order ++ queue).Nodup
  subset : ∀ n ∈ order ++ queue, n ∈ taskNames tasks
  posUntouched : ∀ n ∈ taskNames tasks, n ∉ order ++ queue → 1 ≤ f n
  nonposTouched : ∀ n ∈ order ++ queue, f n ≤ 0
  sorted : ∀ (k : Nat) (hk : k < order.length),
    depsDone tasks (order.take k) (order.get ⟨k, hk⟩)
  ready : ∀ n ∈ queue, depsDone tasks order n
  degGe : ∀ t ∈ tasks,
    ((t.depends_on.filter (fun d => decide (d ∉ order))).length : Int) ≤ f t.name
  degLe : (∀ t ∈ tasks, t.depends_on.Nodup) → ∀ t ∈ tasks,
    f t.name ≤ ((t.depends_on.filter (fun d => decide (d ∉ order))).length : Int)

/-- Fixture node for exercising the skip rule mid-run. -/
def tbNode : TaskNode Nat := mkTask "b" (fun _ => .ok none) ["a"]

/-- Fixture task table in which "a" has already FAILED and "b" (which
depends on it) is still pending. -/
def tasksSkip : List (TaskNode Nat) :=
  [⟨"a", fun _ => .error "boom", [], .failed, [], some "boom", 0⟩, tbNode]

/-- A successful dict lookup returns a member carrying the looked-up name. -/
theorem findTask_spec {V : Type} {tasks : List (TaskNode V)} {n : String}
    {t : TaskNode V} (h : findTask tasks n = some t) :
    t ∈ tasks ∧ t.name = n := by
  unfold findTask at h
  refine ⟨List.mem_of_find?_eq_some h, ?_⟩
  have := List.find?_some h
  simpa using this

/-- A name found in the table satisfies the duplicate check of add_task. -/
theorem any_name_of_findTask {V : Type} {tasks : List (TaskNode V)} {n : String}
    {t : TaskNode V} (h : findTask tasks n = some t) :
    tasks.any (fun u => decide (u.name = n)) = true := by
  obtain ⟨hmem, hname⟩ := findTask_spec h
  simp only [List.any_eq_true]
  exact ⟨t, hmem, by simpa using hname⟩

/-- C9: adding a second node under a name that is already registered
fails with the duplicate-name error, and the node originally registered
under that name is still the one the table returns. -/
theorem claim_C9 {V : Type} (g : DAG V) (n : String)
    (fn : Ctx V → Except String (Option (Ctx V))) (deps : List String)
    (t0 : TaskNode V) (h : findTask g.tasks n = some t0) :
    g.add_task n fn deps = .error (.duplicateTask n) ∧
      findTask g.tasks n = some t0 := by
  refine ⟨?_, h⟩
  unfold DAG.add_task
  rw [if_pos (any_name_of_findTask h)]

/-- Witness for C9 on a concrete graph: re-adding "x" to gPair fails and
leaves the node intact. -/
theorem claim_C9_witness :
    gPair.add_task "x" (fun _ => .ok none) [] = .error (.duplicateTask "x") ∧
      findTask gPair.tasks "x" = some (gPair.tasks.get ⟨0, by decide⟩) :=
  claim_C9 gPair "x" (fun _ => .ok none) [] (gPair.tasks.get ⟨0, by decide⟩) rfl

/-- Shape of a completed run: when the sort succeeds, run returns the
summary built from the final task states together with the post-state. -/
theorem run_eq_of_sort_ok {V : Type} {g : DAG V} {order : List String}
    (htop : g.topological_sort = .ok order) (c : Ctx V) :
    g.run c =
      (.ok ⟨g.name, (runLoop order g.tasks c []).2.2,
          if (runLoop order g.tasks c []).1.all (fun t => decide (t.status = .success))
          then "completed" else "failed"⟩,
        ⟨g.name, (runLoop order g.tasks c []).1⟩) := by
  unfold DAG.run
  rw [htop]

/-- A scheduling error short-circuits run: the error is returned and the
DAG is handed back untouched. -/
theorem run_eq_of_sort_error {V : Type} {g : DAG V} {e : DagError}
    (htop : g.topological_sort = .error e) (c : Ctx V) :
    g.run c = (.error e, g) := by
  unfold DAG.run
  rw [htop]

/-- C6: for a graph that schedules, the overall summary status is
"completed" exactly when every node of the post-state ended in SUCCESS,
and any FAILED or SKIPPED node forces it to "failed". -/
theorem claim_C6 {V : Type} (g : DAG V) (c : Ctx V) (s : RunSummary)
    (hs : (g.run c).1 = .ok s) :
    (s.status = "completed" ↔ ∀ t ∈ (g.run c).2.tasks, t.status = .success) ∧
      ((∃ t ∈ (g.run c).2.tasks, t.status = .failed ∨ t.status = .skipped) →
        s.status = "failed") := by
  rcases htop : g.topological_sort with e | order
  · rw [run_eq_of_sort_error htop] at hs
    exact absurd hs (by simp)
  · obtain rfl : s = ⟨g.name, (runLoop order g.tasks c []).2.2,
        if (runLoop order g.tasks c []).1.all (fun t => decide (t.status = .success))
        then "completed" else "failed"⟩ := by
      rw [run_eq_of_sort_ok htop] at hs
      exact (Except.ok.inj hs).symm
    rw [run_eq_of_sort_ok htop]
    dsimp only
    by_cases hall :
        (runLoop order g.tasks c []).1.all (fun t => decide (t.status = .success)) = true
    · rw [if_pos hall]
      simp only [List.all_eq_true, decide_eq_true_eq] at hall
      refine ⟨⟨fun _ => hall, fun _ => rfl⟩, ?_⟩
      rintro ⟨t, hmem, hbad⟩
      rcases hbad with hb | hb <;> simp [hall t hmem] at hb
    · rw [if_neg hall]
      refine ⟨⟨fun hco => absurd hco (by decide), fun hforall => ?_⟩, fun _ => rfl⟩
      refine absurd ?_ hall
      simp only [List.all_eq_true, decide_eq_true_eq]
      exact hforall

/-- Witness for C6 on the concrete failing chain: its run returns this
summary, and the claimed equivalence holds of it. -/
theorem claim_C6_witness :
    (gChain.run []).1 = .ok
      (⟨"chain", [("a", .ranEntry "failed" 0 (some "boom")), ("b", .skippedEntry),
        ("c", .ranEntry "success" 0 none)], "failed"⟩ : RunSummary) ∧
    (((⟨"chain", [("a", .ranEntry "failed" 0 (some "boom")), ("b", .skippedEntry),
        ("c", .ranEntry "success" 0 none)], "failed"⟩ : RunSummary).status = "completed" ↔
      ∀ t ∈ (gChain.run []).2.tasks, t.status = .success) ∧
    ((∃ t ∈ (gChain.run []).2.tasks, t.status = .failed ∨ t.status = .skipped) →
      (⟨"chain", [("a", .ranEntry "failed" 0 (some "boom")), ("b", .skippedEntry),
        ("c", .ranEntry "success" 0 none)], "failed"⟩ : RunSummary).status = "failed")) :=
  ⟨rfl, claim_C6 gChain [] _ rfl⟩

/-- C2 is false on the code: in the concrete chain a(fails) → b → c the
run leaves b SKIPPED, yet c — whose only direct dependency b finished
SKIPPED — is executed and ends SUCCESS, not SKIPPED. -/
theorem claim_C2_counterexample :
    (findTask gChain.tasks "c").map (fun t => t.depends_on) = some ["b"] ∧
      statusOf (gChain.run []).2.tasks "b" = .skipped ∧
      statusOf (gChain.run []).2.tasks "c" = .success ∧
      statusOf (gChain.run []).2.tasks "c" ≠ .skipped :=
  ⟨rfl, rfl, rfl, by decide⟩

/-- C2 amended: only a FAILED direct dependency triggers the skip — a
visited node with such a dependency is set to SKIPPED without invoking
its callable; a SKIPPED dependency does not trigger it, so in the chain
a(fails) → b → c the run leaves a FAILED, b SKIPPED and c executed
(SUCCESS, since its callable returns normally). -/
theorem claim_C2 {V : Type} (tasks : List (TaskNode V)) (context : Ctx V)
    (entries : List (String × SummaryEntry)) (n : String) (task : TaskNode V)
    (hfind : findTask tasks n = some task)
    (hfail : task.depends_on.any
      (fun dep => decide (statusOf tasks dep = .failed)) = true) :
    runStep tasks context entries n =
      (setTask tasks n ⟨task.name, task.execute_fn, task.depends_on, .skipped,
          task.result, task.error, task.duration_ms⟩,
        context, entries ++ [(n, .skippedEntry)]) ∧
      statusOf (gChain.run []).2.tasks "a" = .failed ∧
      statusOf (gChain.run []).2.tasks "b" = .skipped ∧
      statusOf (gChain.run []).2.tasks "c" = .success := by
  refine ⟨?_, rfl, rfl, rfl⟩
  simp only [runStep, hfind]
  rw [if_pos hfail]

/-- Witness for C2 (amended) at a concrete mid-run state: task "b",
whose dependency "a" has FAILED, gets skipped without its callable
running. -/
theorem claim_C2_witness :
    runStep tasksSkip [] [] "b" =
      (setTask tasksSkip "b" ⟨tbNode.name, tbNode.execute_fn, tbNode.depends_on,
          .skipped, tbNode.result, tbNode.error, tbNode.duration_ms⟩,
        [], [("b", .skippedEntry)]) ∧
      statusOf (gChain.run []).2.tasks "a" = .failed ∧
      statusOf (gChain.run []).2.tasks "b" = .skipped ∧
      statusOf (gChain.run []).2.tasks "c" = .success :=
  claim_C2 tasksSkip [] [] "b" tbNode rfl rfl

/-- Equation for runStep when the name is absent from the table
(unreachable for scheduled names). -/
theorem runStep_none {V : Type} {tasks : List (TaskNode V)} {c : Ctx V}
    {e : List (String × SummaryEntry)} {n : String}
    (h : findTask tasks n = none) : runStep tasks c e n = (tasks, c, e) := by
  unfold runStep
  rw [h]

/-- Equation for runStep when some direct dependency has FAILED. -/
theorem runStep_skip {V : Type} {tasks : List (TaskNode V)} {c : Ctx V}
    {e : List (String × SummaryEntry)} {n : String} {task : TaskNode V}
    (hfind : findTask tasks n = some task)
    (hfail : task.depends_on.any
      (fun dep => decide (statusOf tasks dep = .failed)) = true) :
    runStep tasks c e n =
      (setTask tasks n ⟨task.name, task.execute_fn, task.depends_on, .skipped,
          task.result, task.error, task.duration_ms⟩,
        c, e ++ [(n, .skippedEntry)]) := by
  unfold runStep
  rw [hfind]
  dsimp only
  rw [if_pos hfail]

/-- Equation for runStep when no dependency FAILED and the callable
returns normally. -/
theorem runStep_ok {V : Type} {tasks : List (TaskNode V)} {c : Ctx V}
    {e : List (String × SummaryEntry)} {n : String} {task : TaskNode V}
    {r : Option (Ctx V)}
    (hfind : findTask tasks n = some task)
    (hfail : task.depends_on.any
      (fun dep => decide (statusOf tasks dep = .failed)) = false)
    (hex : task.execute_fn (mergedContext tasks c task) = .ok r) :
    runStep tasks c e n =
      (setTask tasks n ⟨task.name, task.execute_fn, task.depends_on, .success,
          r.getD [], task.error, 0⟩,
        mergedContext tasks c task,
        e ++ [(n, .ranEntry TaskStatus.success.value 0 task.error)]) := by
  unfold runStep
  rw [hfind]
  dsimp only
  rw [if_neg (by simp [hfail]), hex]

/-- Equation for runStep when no dependency FAILED and the callable
raises: the fault is contained, recorded as FAILED with its description. -/
theorem runStep_error {V : Type} {tasks : List (TaskNode V)} {c : Ctx V}
    {e : List (String × SummaryEntry)} {n : String} {task : TaskNode V}
    {msg : String}
    (hfind : findTask tasks n = some task)
    (hfail : task.depends_on.any
      (fun dep => decide (statusOf tasks dep = .failed)) = false)
    (hex : task.execute_fn (mergedContext tasks c task) = .error msg) :
    runStep tasks c e n =
      (setTask tasks n ⟨task.name, task.execute_fn, task.depends_on, .failed,
          task.result, some msg, 0⟩,
        mergedContext tasks c task,
        e ++ [(n, .ranEntry TaskStatus.failed.value 0 (some msg))]) := by
  unfold runStep
  rw [hfind]
  dsimp only
  rw [if_neg (by simp [hfail]), hex]

/-- Within a table of pairwise-distinct names, equality of names is
equality of nodes. -/
theorem nodup_name_inj {V : Type} {tasks : List (TaskNode V)}
    (hn : (taskNames tasks).Nodup) {t u : TaskNode V}
    (ht : t ∈ tasks) (hu : u ∈ tasks) (h : t.name = u.name) : t = u :=
  List.inj_on_of_nodup_map hn ht hu h

/-- Replacing the node registered under a name by one with the same
build-time structure leaves the structural projection of the table
unchanged. -/
theorem setTask_structure {V : Type} {tasks : List (TaskNode V)} {n : String}
    {task t2 : TaskNode V} (hn : (taskNames tasks).Nodup)
    (hfind : findTask tasks n = some task)
    (hstruct : structureProj t2 = structureProj task) :
    (setTask tasks n t2).map structureProj = tasks.map structureProj := by
  unfold setTask
  rw [List.map_map]
  apply List.map_congr_left
  intro t ht
  by_cases hname : t.name = n
  · obtain ⟨hmem, hna⟩ := findTask_spec hfind
    have heq : t = task := nodup_name_inj hn ht hmem (hname.trans hna.symm)
    subst heq
    simp only [Function.comp_apply, if_pos hname, hstruct]
  · simp only [Function.comp_apply, if_neg hname]

/-- Tables with equal structural projections carry the same name list. -/
theorem taskNames_eq_of_structure {V : Type} {a b : List (TaskNode V)}
    (h : a.map structureProj = b.map structureProj) :
    taskNames a = taskNames b := by
  have ha : taskNames a = (a.map structureProj).map Prod.fst := by
    unfold taskNames structureProj
    rw [List.map_map]
    rfl
  have hb : taskNames b = (b.map structureProj).map Prod.fst := by
    unfold taskNames structureProj
    rw [List.map_map]
    rfl
  rw [ha, hb, h]

/-- One run-loop step never changes any node's build-time structure. -/
theorem runStep_structure {V : Type} (tasks : List (TaskNode V)) (c : Ctx V)
    (e : List (String × SummaryEntry)) (n : String)
    (hn : (taskNames tasks).Nodup) :
    ((runStep tasks c e n).1).map structureProj = tasks.map structureProj := by
  rcases hfind : findTask tasks n with _ | task
  · rw [runStep_none hfind]
  · by_cases hfail : task.depends_on.any
        (fun dep => decide (statusOf tasks dep = .failed)) = true
    · rw [runStep_skip hfind hfail]
      exact setTask_structure hn hfind rfl
    · rcases hex : task.execute_fn (mergedContext tasks c task) with msg | r
      · rw [runStep_error hfind (Bool.not_eq_true _ ▸ hfail) hex]
        exact setTask_structure hn hfind rfl
      · rw [runStep_ok hfind (Bool.not_eq_true _ ▸ hfail) hex]
        exact setTask_structure hn hfind rfl

/-- The whole run loop never changes any node's build-time structure. -/
theorem runLoop_structure {V : Type} (order : List String) :
    ∀ (tasks : List (TaskNode V)) (c : Ctx V)
      (e : List (String × SummaryEntry)),
      (taskNames tasks).Nodup →
      ((runLoop order tasks c e).1).map structureProj =
        tasks.map structureProj := by
  induction order with
  | nil => intro tasks c e _; rfl
  | cons n rest ih =>
    intro tasks c e hn
    have hstep := runStep_structure tasks c e n hn
    have hn2 : (taskNames (runStep tasks c e n).1).Nodup := by
      rw [taskNames_eq_of_structure hstep]; exact hn
    calc ((runLoop (n :: rest) tasks c e).1).map structureProj
        = ((runLoop rest (runStep tasks c e n).1 (runStep tasks c e n).2.1
            (runStep tasks c e n).2.2).1).map structureProj := rfl
      _ = ((runStep tasks c e n).1).map structureProj := ih _ _ _ hn2
      _ = tasks.map structureProj := hstep

/-- C8: to_dict is a pure projection of build-time structure — the graph
name and each node's declared dependency list — and running the graph
(which only mutates statuses, results, errors and durations) leaves its
output unchanged. -/
theorem claim_C8 {V : Type} (g : DAG V) (c : Ctx V)
    (hn : (taskNames g.tasks).Nodup) :
    ((g.run c).2).to_dict = g.to_dict ∧
      g.to_dict = ⟨g.name, g.tasks.map (fun t => (t.name, t.depends_on))⟩ := by
  refine ⟨?_, rfl⟩
  rcases htop : g.topological_sort with err | order
  · rw [run_eq_of_sort_error htop]
  · rw [run_eq_of_sort_ok htop]
    unfold DAG.to_dict
    dsimp only
    have := runLoop_structure order g.tasks c [] hn
    unfold structureProj at this
    rw [this]

/-- Witness for C8 on gPair: serializing before and after a run agrees. -/
theorem claim_C8_witness :
    ((gPair.run [("seed", 5)]).2).to_dict = gPair.to_dict ∧
      gPair.to_dict =
        ⟨"pair", gPair.tasks.map (fun t => (t.name, t.depends_on))⟩ :=
  claim_C8 gPair [("seed", 5)] (by decide)

/-- The duplicate/unknown-name membership test only looks at the name
column of the table. -/
theorem any_name_eq {V : Type} (tasks : List (TaskNode V)) (d : String) :
    tasks.any (fun u => decide (u.name = d)) = decide (d ∈ taskNames tasks) := by
  refine Bool.eq_iff_iff.mpr ?_
  simp only [List.any_eq_true, decide_eq_true_eq, taskNames, List.mem_map]

/-- addTaskDegrees only consults the name column of the table, the
declaring task's name, and the dependency list it walks. -/
theorem addTaskDegrees_congr {V : Type} {a b : List (TaskNode V)}
    (h : taskNames a = taskNames b) {t u : TaskNode V} (hname : t.name = u.name) :
    ∀ (ds : List String) (f : String → Int),
      addTaskDegrees a t ds f = addTaskDegrees b u ds f := by
  intro ds
  induction ds with
  | nil => intro f; rfl
  | cons d ds ih =>
    intro f
    unfold addTaskDegrees
    rw [any_name_eq, any_name_eq, h]
    by_cases hd : decide (d ∈ taskNames b) = true
    · rw [if_pos hd, if_pos hd, hname, ih]
    · rw [if_neg hd, if_neg hd, hname]

/-- buildInDegrees is determined by the structural projection of the
table. -/
theorem buildInDegrees_congr {V : Type} {a b : List (TaskNode V)}
    (h : taskNames a = taskNames b) :
    ∀ (as bs : List (TaskNode V)),
      as.map structureProj = bs.map structureProj →
      ∀ f, buildInDegrees a as f = buildInDegrees b bs f := by
  intro as
  induction as with
  | nil =>
    intro bs hm f
    cases bs with
    | nil => rfl
    | cons u us => simp at hm
  | cons t ts ih =>
    intro bs hm f
    cases bs with
    | nil => simp at hm
    | cons u us =>
      simp only [List.map_cons, List.cons.injEq, structureProj,
        Prod.mk.injEq] at hm
      obtain ⟨⟨hname, hdeps⟩, htail⟩ := hm
      unfold buildInDegrees
      rw [show addTaskDegrees a t t.depends_on f
            = addTaskDegrees b u u.depends_on f by
          rw [hdeps]; exact addTaskDegrees_congr h hname u.depends_on f]
      rcases addTaskDegrees b u u.depends_on f with e | f2
      · rfl
      · exact ih us (by simpa [structureProj] using htail) f2

/-- One decrement pass of the Kahn loop is determined by the structural
projection of the table. -/
theorem decFold_congr {V : Type} :
    ∀ (as bs : List (TaskNode V)),
      as.map structureProj = bs.map structureProj →
      ∀ (current : String) (s : (String → Int) × List String),
        as.foldl (decStep current) s = bs.foldl (decStep current) s := by
  intro as
  induction as with
  | nil =>
    intro bs hm current s
    cases bs with
    | nil => rfl
    | cons u us => simp at hm
  | cons t ts ih =>
    intro bs hm current s
    cases bs with
    | nil => simp at hm
    | cons u us =>
      simp only [List.map_cons, List.cons.injEq, structureProj,
        Prod.mk.injEq] at hm
      obtain ⟨⟨hname, hdeps⟩, htail⟩ := hm
      simp only [List.foldl_cons]
      rw [show decStep current s t = decStep current s u by
        unfold decStep; rw [hname, hdeps]]
      exact ih us (by simpa [structureProj] using htail) current _

/-- Kahn's loop is determined by the structural projection of the table. -/
theorem kahnLoop_congr {V : Type} {a b : List (TaskNode V)}
    (hm : a.map structureProj = b.map structureProj) :
    ∀ (fuel : Nat) (queue : List String) (f : String → Int)
      (order : List String),
      kahnLoop a fuel queue f order = kahnLoop b fuel queue f order := by
  intro fuel
  induction fuel with
  | zero => intro queue f order; rfl
  | succ fuel ih =>
    intro queue f order
    cases queue with
    | nil => rfl
    | cons current rest =>
      show kahnLoop a fuel (a.foldl (decStep current) (f, rest)).2
            (a.foldl (decStep current) (f, rest)).1 (order ++ [current])
          = kahnLoop b fuel (b.foldl (decStep current) (f, rest)).2
            (b.foldl (decStep current) (f, rest)).1 (order ++ [current])
      rw [decFold_congr a b hm current (f, rest), ih]

/-- The whole scheduler is determined by the structural projection of
the task table. -/
theorem topological_sort_congr {V : Type} (g1 g2 : DAG V)
    (hm : g1.tasks.map structureProj = g2.tasks.map structureProj) :
    g1.topological_sort = g2.topological_sort := by
  have hnames : taskNames g1.tasks = taskNames g2.tasks :=
    taskNames_eq_of_structure hm
  have hlen : g1.tasks.length = g2.tasks.length := by
    have := congrArg List.length hm
    simpa using this
  unfold DAG.topological_sort
  rw [buildInDegrees_congr hnames g1.tasks g2.tasks hm (fun _ => 0)]
  rcases buildInDegrees g2.tasks g2.tasks (fun _ => 0) with e | f
  · rfl
  · dsimp only
    have hseeds :
        (g1.tasks.filter (fun t => decide (f t.name = 0))).map (fun t => t.name)
          = (g2.tasks.filter (fun t => decide (f t.name = 0))).map
              (fun t => t.name) := by
      have hcomp : (fun t : TaskNode V => decide (f t.name = 0))
          = ((fun m => decide (f m = 0)) ∘ fun t : TaskNode V => t.name) := rfl
      rw [hcomp, ← List.filter_map, ← List.filter_map]
      show List.filter _ (taskNames g1.tasks) = List.filter _ (taskNames g2.tasks)
      rw [hnames]
    rw [hseeds, kahnLoop_congr hm, hlen]

/-- C7: the scheduler is a deterministic function of the build-time
structure alone — two graphs with the same node names and dependency
lists in the same table order (whatever their callables, statuses,
results, errors or durations, e.g. the same graph before and after a
run) are scheduled identically, and in particular re-running the
scheduler on an unmodified graph reproduces the order that the FIFO
ready-queue discipline of kahnLoop produced the first time. -/
theorem claim_C7 {V : Type} (g1 g2 : DAG V)
    (hm : g1.tasks.map structureProj = g2.tasks.map structureProj) :
    g1.topological_sort = g2.topological_sort :=
  topological_sort_congr g1 g2 hm

/-- Witness for C7: gPair and its own post-run state have identical
structural projections, so the scheduler orders them identically. -/
theorem claim_C7_witness :
    ((gPair.run [("seed", 5)]).2).topological_sort = gPair.topological_sort :=
  claim_C7 (gPair.run [("seed", 5)]).2 gPair rfl

/-- A dependency name resolves exactly when it occurs in the name
column of the table. -/
theorem resolves_iff {V : Type} (g : DAG V) (d : String) :
    g.resolves d ↔ d ∈ taskNames g.tasks := by
  unfold DAG.resolves taskNames
  simp [List.mem_map, eq_comm]

/-- Walking a dependency list that contains an unresolved name raises
the unknown-dependency error for some unresolved entry of the list. -/
theorem addTaskDegrees_error {V : Type} (tasks : List (TaskNode V))
    (t : TaskNode V) :
    ∀ (ds : List String) (f : String → Int),
      (∃ d ∈ ds, d ∉ taskNames tasks) →
      ∃ d, addTaskDegrees tasks t ds f = .error (.unknownDependency t.name d) ∧
        d ∈ ds ∧ d ∉ taskNames tasks := by
  intro ds
  induction ds with
  | nil => intro f h; simp at h
  | cons d0 rest ih =>
    intro f h
    unfold addTaskDegrees
    rw [any_name_eq]
    by_cases h0 : d0 ∈ taskNames tasks
    · rw [if_pos (by simpa using h0)]
      have hrest : ∃ d ∈ rest, d ∉ taskNames tasks := by
        rcases h with ⟨d, hd, hnot⟩
        rcases List.mem_cons.mp hd with rfl | hd2
        · exact absurd h0 hnot
        · exact ⟨d, hd2, hnot⟩
      rcases ih (bump f t.name) hrest with ⟨d, heq, hmem, hnot⟩
      exact ⟨d, heq, List.mem_cons_of_mem _ hmem, hnot⟩
    · rw [if_neg (by simpa using h0)]
      exact ⟨d0, rfl, List.mem_cons_self _ _, h0⟩

/-- Walking a dependency list whose names all resolve succeeds, adding
one per entry to the declaring task's counter. -/
theorem addTaskDegrees_ok {V : Type} (tasks : List (TaskNode V))
    (t : TaskNode V) :
    ∀ (ds : List String) (f : String → Int),
      (∀ d ∈ ds, d ∈ taskNames tasks) →
      ∃ f2, addTaskDegrees tasks t ds f = .ok f2 ∧
        ∀ m, f2 m = if m = t.name then f m + ds.length else f m := by
  intro ds
  induction ds with
  | nil =>
    intro f _
    refine ⟨f, rfl, fun m => ?_⟩
    by_cases hm : m = t.name <;> simp [hm]
  | cons d0 rest ih =>
    intro f h
    unfold addTaskDegrees
    rw [any_name_eq, if_pos (by simpa using h d0 (List.mem_cons_self _ _))]
    rcases ih (bump f t.name) (fun d hd => h d (List.mem_cons_of_mem _ hd))
      with ⟨f2, heq, hval⟩
    refine ⟨f2, heq, fun m => ?_⟩
    rw [hval m]
    unfold bump
    by_cases hm : m = t.name <;> simp [hm, List.length_cons]
    omega

/-- The in-degree construction over a table containing an unresolved
dependency raises the unknown-dependency error, naming the declaring
task and the missing name. -/
theorem buildInDegrees_error {V : Type} (tasks : List (TaskNode V)) :
    ∀ (rem : List (TaskNode V)) (f : String → Int),
      (∃ t ∈ rem, ∃ d ∈ t.depends_on, d ∉ taskNames tasks) →
      ∃ t d, buildInDegrees tasks rem f = .error (.unknownDependency t.name d) ∧
        t ∈ rem ∧ d ∈ t.depends_on ∧ d ∉ taskNames tasks := by
  intro rem
  induction rem with
  | nil => intro f h; simp at h
  | cons t0 rest ih =>
    intro f h
    unfold buildInDegrees
    by_cases h0 : ∃ d ∈ t0.depends_on, d ∉ taskNames tasks
    · rcases addTaskDegrees_error tasks t0 t0.depends_on f h0
        with ⟨d, heq, hmem, hnot⟩
      rw [heq]
      exact ⟨t0, d, rfl, List.mem_cons_self _ _, hmem, hnot⟩
    · have hall : ∀ d ∈ t0.depends_on, d ∈ taskNames tasks := by
        intro d hd
        by_contra hnot
        exact h0 ⟨d, hd, hnot⟩
      rcases addTaskDegrees_ok tasks t0 t0.depends_on f hall with ⟨f2, heq, _⟩
      rw [heq]
      have hrest : ∃ t ∈ rest, ∃ d ∈ t.depends_on, d ∉ taskNames tasks := by
        rcases h with ⟨t, ht, d, hd, hnot⟩
        rcases List.mem_cons.mp ht with rfl | ht2
        · exact absurd (hall d hd) hnot
        · exact ⟨t, ht2, d, hd, hnot⟩
      rcases ih f2 hrest with ⟨t, d, heq2, hmem, hd, hnot⟩
      exact ⟨t, d, heq2, List.mem_cons_of_mem _ hmem, hd, hnot⟩

/-- Tables related pointwise by sameButFn have equal structural
projections. -/
theorem structure_of_sameButFn {V : Type} {a b : List (TaskNode V)}
    (h : List.Forall₂ sameButFn a b) :
    a.map structureProj = b.map structureProj := by
  induction h with
  | nil => rfl
  | cons hpair _ ih =>
    simp only [List.map_cons, ih, List.cons.injEq, and_true]
    unfold structureProj
    rw [hpair.1, hpair.2.1]

/-- C4: when some node declares a dependency that no node carries, run
fails with an unknown-dependency error naming an offending node and its
missing dependency, the DAG is handed back with every node state
untouched, and — since the outcome is the same whatever callables the
nodes carry — no task logic is ever invoked. -/
theorem claim_C4 {V : Type} (g : DAG V) (c : Ctx V)
    (hbad : ∃ t ∈ g.tasks, ∃ d ∈ t.depends_on, ¬ g.resolves d) :
    ∃ tn dn, (g.run c).1 = .error (.unknownDependency tn dn) ∧
      (∃ t ∈ g.tasks, t.name = tn ∧ dn ∈ t.depends_on) ∧ ¬ g.resolves dn ∧
      (g.run c).2 = g ∧
      ∀ (g2 : DAG V) (c2 : Ctx V), List.Forall₂ sameButFn g.tasks g2.tasks →
        (g2.run c2).1 = .error (.unknownDependency tn dn) ∧ (g2.run c2).2 = g2 := by
  have hbad2 : ∃ t ∈ g.tasks, ∃ d ∈ t.depends_on, d ∉ taskNames g.tasks := by
    rcases hbad with ⟨t, ht, d, hd, hnot⟩
    exact ⟨t, ht, d, hd, fun hmem => hnot ((resolves_iff g d).mpr hmem)⟩
  rcases buildInDegrees_error g.tasks g.tasks (fun _ => 0) hbad2
    with ⟨t, d, herr, hmem, hd, hnot⟩
  have htop : g.topological_sort = .error (.unknownDependency t.name d) := by
    unfold DAG.topological_sort
    rw [herr]
  refine ⟨t.name, d, ?_, ⟨t, hmem, rfl, hd⟩,
    fun hres => hnot ((resolves_iff g d).mp hres), ?_, ?_⟩
  · rw [run_eq_of_sort_error htop]
  · rw [run_eq_of_sort_error htop]
  · intro g2 c2 hsame
    have htop2 : g2.topological_sort = .error (.unknownDependency t.name d) := by
      rw [← topological_sort_congr g g2 (structure_of_sameButFn hsame)]
      exact htop
    rw [run_eq_of_sort_error htop2]
    exact ⟨rfl, rfl⟩

/-- Witness for C4 on the concrete graph whose task names the
dependency "ghost" that no task carries. -/
theorem claim_C4_witness :
    ∃ tn dn, (gUnknown.run []).1 = .error (.unknownDependency tn dn) ∧
      (∃ t ∈ gUnknown.tasks, t.name = tn ∧ dn ∈ t.depends_on) ∧
      ¬ gUnknown.resolves dn ∧ (gUnknown.run []).2 = gUnknown ∧
      ∀ (g2 : DAG Nat) (c2 : Ctx Nat),
        List.Forall₂ sameButFn gUnknown.tasks g2.tasks →
        (g2.run c2).1 = .error (.unknownDependency tn dn) ∧ (g2.run c2).2 = g2 := by
  refine claim_C4 gUnknown []
    ⟨mkTask "a" (fun _ => .ok none) ["ghost"], List.mem_cons_self _ _,
      "ghost", List.mem_cons_self _ _, ?_⟩
  rw [resolves_iff]
  decide

/-- A name registered in the table is findable. -/
theorem findTask_of_mem_names {V : Type} {tasks : List (TaskNode V)} {n : String}
    (h : n ∈ taskNames tasks) : ∃ t, findTask tasks n = some t := by
  have : (tasks.find? (fun t => decide (t.name = n))).isSome = true := by
    rw [List.find?_isSome]
    rcases List.mem_map.mp h with ⟨t, ht, hname⟩
    exact ⟨t, ht, by simpa using hname⟩
  rcases Option.isSome_iff_exists.mp this with ⟨t, ht⟩
  exact ⟨t, ht⟩

/-- Replacing under a registered name makes the lookup return the
replacement (provided it keeps the name, as every runStep update does). -/
theorem findTask_setTask_self {V : Type} {tasks : List (TaskNode V)}
    {n : String} {task : TaskNode V} (t2 : TaskNode V)
    (hfind : findTask tasks n = some task) (hname : t2.name = n) :
    findTask (setTask tasks n t2) n = some t2 := by
  induction tasks with
  | nil => simp [findTask] at hfind
  | cons t0 rest ih =>
    by_cases h0 : t0.name = n
    · unfold setTask findTask
      simp only [List.map_cons, if_pos h0]
      rw [List.find?_cons_of_pos _ (by simp [hname])]
    · have hfind2 : findTask rest n = some task := by
        unfold findTask at hfind
        rwa [List.find?_cons_of_neg _
          (by simp [h0])] at hfind
      unfold setTask findTask
      simp only [List.map_cons, if_neg h0]
      rw [List.find?_cons_of_neg _
        (by simp [h0])]
      exact ih hfind2

/-- Node replacement keeps the name column of the table. -/
theorem setTask_names {V : Type} {tasks : List (TaskNode V)} {n : String}
    {task t2 : TaskNode V} (hfind : findTask tasks n = some task)
    (hname : t2.name = task.name) :
    taskNames (setTask tasks n t2) = taskNames tasks := by
  unfold setTask taskNames
  rw [List.map_map]
  apply List.map_congr_left
  intro t ht
  by_cases h : t.name = n
  · simp only [Function.comp_apply, if_pos h]
    exact hname.trans (((findTask_spec hfind).2).trans h.symm)
  · simp only [Function.comp_apply, if_neg h]

/-- One run-loop step keeps the name column of the table. -/
theorem runStep_names {V : Type} (tasks : List (TaskNode V)) (c : Ctx V)
    (e : List (String × SummaryEntry)) (n : String) :
    taskNames (runStep tasks c e n).1 = taskNames tasks := by
  rcases hfind : findTask tasks n with _ | task
  · rw [runStep_none hfind]
  · by_cases hfail : task.depends_on.any
        (fun dep => decide (statusOf tasks dep = .failed)) = true
    · rw [runStep_skip hfind hfail]
      exact setTask_names hfind rfl
    · rcases hex : task.execute_fn (mergedContext tasks c task) with msg | r
      · rw [runStep_error hfind (Bool.not_eq_true _ ▸ hfail) hex]
        exact setTask_names hfind rfl
      · rw [runStep_ok hfind (Bool.not_eq_true _ ▸ hfail) hex]
        exact setTask_names hfind rfl

/-- Visiting a registered name appends exactly one summary entry. -/
theorem runStep_entries {V : Type} (tasks : List (TaskNode V)) (c : Ctx V)
    (e : List (String × SummaryEntry)) (n : String)
    (h : n ∈ taskNames tasks) :
    ∃ ent, (runStep tasks c e n).2.2 = e ++ [(n, ent)] := by
  rcases findTask_of_mem_names h with ⟨task, hfind⟩
  by_cases hfail : task.depends_on.any
      (fun dep => decide (statusOf tasks dep = .failed)) = true
  · rw [runStep_skip hfind hfail]
    exact ⟨.skippedEntry, rfl⟩
  · rcases hex : task.execute_fn (mergedContext tasks c task) with msg | r
    · rw [runStep_error hfind (Bool.not_eq_true _ ▸ hfail) hex]
      exact ⟨_, rfl⟩
    · rw [runStep_ok hfind (Bool.not_eq_true _ ▸ hfail) hex]
      exact ⟨_, rfl⟩

/-- The run loop records one summary entry per visited name, in visit
order. -/
theorem runLoop_entries {V : Type} :
    ∀ (order : List String) (tasks : List (TaskNode V)) (c : Ctx V)
      (e : List (String × SummaryEntry)),
      (∀ n ∈ order, n ∈ taskNames tasks) →
      ((runLoop order tasks c e).2.2).map Prod.fst = e.map Prod.fst ++ order := by
  intro order
  induction order with
  | nil => intro tasks c e _; simp [runLoop]
  | cons n rest ih =>
    intro tasks c e hmem
    rcases runStep_entries tasks c e n (hmem n (List.mem_cons_self _ _))
      with ⟨ent, hent⟩
    have hrest : ∀ m ∈ rest, m ∈ taskNames (runStep tasks c e n).1 := by
      intro m hm
      rw [runStep_names]
      exact hmem m (List.mem_cons_of_mem _ hm)
    show ((runLoop rest (runStep tasks c e n).1 (runStep tasks c e n).2.1
        (runStep tasks c e n).2.2).2.2).map Prod.fst = e.map Prod.fst ++ (n :: rest)
    rw [ih _ _ _ hrest, hent]
    simp

/-- Membership of the queue simulated by one decrement pass: every
element was queued before or is the name of some task. -/
theorem decFold_queue_subset {V : Type} :
    ∀ (tasks : List (TaskNode V)) (current : String)
      (s : (String → Int) × List String) (x : String),
      x ∈ (tasks.foldl (decStep current) s).2 → x ∈ s.2 ∨ x ∈ taskNames tasks := by
  intro tasks
  induction tasks with
  | nil => intro current s x hx; exact Or.inl hx
  | cons t ts ih =>
    intro current s x hx
    rcases ih current (decStep current s t) x hx with h | h
    · unfold decStep at h
      by_cases hc : current ∈ t.depends_on
      · rw [if_pos hc] at h
        dsimp only at h
        by_cases hz : s.1 t.name - 1 = 0
        · rw [if_pos hz] at h
          rcases List.mem_append.mp h with h2 | h2
          · exact Or.inl h2
          · rcases List.mem_singleton.mp h2 with rfl
            exact Or.inr (List.mem_map_of_mem _ (List.mem_cons_self _ _))
        · rw [if_neg hz] at h
          exact Or.inl h
      · rw [if_neg hc] at h
        exact Or.inl h
    · refine Or.inr ?_
      unfold taskNames at h ⊢
      rcases List.mem_map.mp h with ⟨u, hu, rfl⟩
      exact List.mem_map_of_mem _ (List.mem_cons_of_mem _ hu)

/-- The order emitted by Kahn's loop only contains queued names and task
names. -/
theorem kahnLoop_order_subset {V : Type} (tasks : List (TaskNode V)) :
    ∀ (fuel : Nat) (queue : List String) (f : String → Int)
      (order : List String),
      (∀ x ∈ queue, x ∈ taskNames tasks) →
      (∀ x ∈ order, x ∈ taskNames tasks) →
      ∀ x ∈ (kahnLoop tasks fuel queue f order).1, x ∈ taskNames tasks := by
  intro fuel
  induction fuel with
  | zero => intro queue f order _ horder x hx; exact horder x hx
  | succ fuel ih =>
    intro queue f order hqueue horder x hx
    cases queue with
    | nil => exact horder x hx
    | cons current rest =>
      refine ih _ _ _ ?_ ?_ x hx
      · intro y hy
        rcases decFold_queue_subset tasks current (f, rest) y hy with h | h
        · exact hqueue y (List.mem_cons_of_mem _ h)
        · exact h
      · intro y hy
        rcases List.mem_append.mp hy with h | h
        · exact horder y h
        · rcases List.mem_singleton.mp h with rfl
          exact hqueue y (List.mem_cons_self _ _)

/-- Every name the scheduler emits is a registered task name. -/
theorem sort_order_subset {V : Type} {g : DAG V} {order : List String}
    (h : g.topological_sort = .ok order) :
    ∀ n ∈ order, n ∈ taskNames g.tasks := by
  unfold DAG.topological_sort at h
  rcases hb : buildInDegrees g.tasks g.tasks (fun _ => 0) with e | f
  · rw [hb] at h; exact absurd h (by simp)
  · rw [hb] at h
    dsimp only at h
    by_cases hlen : (kahnLoop g.tasks g.tasks.length
        ((g.tasks.filter (fun t => decide (f t.name = 0))).map (fun t => t.name))
        f []).1.length = g.tasks.length
    · rw [if_pos hlen] at h
      obtain rfl := Except.ok.inj h
      refine kahnLoop_order_subset g.tasks _ _ _ _ ?_ (by simp)
      intro x hx
      rcases List.mem_map.mp hx with ⟨t, ht, rfl⟩
      exact List.mem_map_of_mem _ (List.mem_of_mem_filter ht)
    · rw [if_neg hlen] at h
      exact absurd h (by simp)

/-- C5: once a graph schedules, run always hands back a summary — one
entry per scheduled node, in order — and a callable that raises is
contained: the step that invoked it marks the node FAILED, stores the
fault description as its error, and records the failure in the summary
instead of propagating it. -/
theorem claim_C5 {V : Type} (g : DAG V) (c : Ctx V) (order : List String)
    (horder : g.topological_sort = .ok order) :
    (∃ s : RunSummary, (g.run c).1 = .ok s ∧
      s.taskEntries.map Prod.fst = order) ∧
    (∀ (tasks : List (TaskNode V)) (c2 : Ctx V)
        (e : List (String × SummaryEntry)) (n : String) (task : TaskNode V)
        (msg : String),
      findTask tasks n = some task →
      task.depends_on.any (fun dep => decide (statusOf tasks dep = .failed)) = false →
      task.execute_fn (mergedContext tasks c2 task) = .error msg →
      statusOf (runStep tasks c2 e n).1 n = .failed ∧
        (findTask (runStep tasks c2 e n).1 n).map (fun t => t.error) =
          some (some msg) ∧
        (runStep tasks c2 e n).2.2 =
          e ++ [(n, .ranEntry "failed" 0 (some msg))]) := by
  constructor
  · refine ⟨⟨g.name, (runLoop order g.tasks c []).2.2,
      if (runLoop order g.tasks c []).1.all (fun t => decide (t.status = .success))
      then "completed" else "failed"⟩, ?_, ?_⟩
    · rw [run_eq_of_sort_ok horder]
    · have := runLoop_entries order g.tasks c [] (sort_order_subset horder)
      simpa using this
  · intro tasks c2 e n task msg hfind hfail hex
    rw [runStep_error hfind hfail hex]
    have hname : (⟨task.name, task.execute_fn, task.depends_on, .failed,
        task.result, some msg, 0⟩ : TaskNode V).name = n := (findTask_spec hfind).2
    have hset := findTask_setTask_self _ hfind hname
    refine ⟨?_, ?_, rfl⟩
    · unfold statusOf
      rw [hset]
    · rw [hset]
      rfl

/-- Witness for C5 on the failing chain: the run returns a summary whose
entries follow the schedule, and the concrete raising step of task "a"
records FAILED with the fault text "boom". -/
theorem claim_C5_witness :
    ((∃ s : RunSummary, (gChain.run []).1 = .ok s ∧
        s.taskEntries.map Prod.fst = ["a", "b", "c"]) ∧
      (∀ (tasks : List (TaskNode Nat)) (c2 : Ctx Nat)
          (e : List (String × SummaryEntry)) (n : String) (task : TaskNode Nat)
          (msg : String),
        findTask tasks n = some task →
        task.depends_on.any
          (fun dep => decide (statusOf tasks dep = .failed)) = false →
        task.execute_fn (mergedContext tasks c2 task) = .error msg →
        statusOf (runStep tasks c2 e n).1 n = .failed ∧
          (findTask (runStep tasks c2 e n).1 n).map (fun t => t.error) =
            some (some msg) ∧
          (runStep tasks c2 e n).2.2 =
            e ++ [(n, .ranEntry "failed" 0 (some msg))])) ∧
    statusOf (runStep gChain.tasks [] [] "a").1 "a" = .failed :=
  ⟨claim_C5 gChain [] ["a", "b", "c"] rfl,
    ((claim_C5 gChain [] ["a", "b", "c"] rfl).2 gChain.tasks [] [] "a"
      (mkTask "a" (fun _ => .error "boom") []) "boom" rfl rfl rfl).1⟩

/-- Characterization of one full decrement pass of the Kahn loop over a
table with pairwise-distinct names: the counter of a name drops by
exactly one when the emitted node occurs in the dependency list of the
task carrying that name (otherwise it is unchanged), and the queue grows
at the back by the names whose counter was spent to zero, in table
order. -/
theorem decFold_char {V : Type} (current : String) :
    ∀ (ts : List (TaskNode V)), (taskNames ts).Nodup →
      ∀ (f : String → Int) (q : List String),
        (∀ n, ((∃ t ∈ ts, t.name = n ∧ current ∈ t.depends_on) →
            ((ts.foldl (decStep current) (f, q)).1) n = f n - 1) ∧
          (¬ (∃ t ∈ ts, t.name = n ∧ current ∈ t.depends_on) →
            ((ts.foldl (decStep current) (f, q)).1) n = f n)) ∧
        (ts.foldl (decStep current) (f, q)).2 =
          q ++ (ts.filter (fun t => decide (current ∈ t.depends_on) &&
              decide (f t.name = 1))).map (fun t => t.name) := by
  intro ts
  induction ts with
  | nil =>
    intro _ f q
    refine ⟨fun n => ⟨fun h => ?_, fun _ => rfl⟩, by simp⟩
    simp at h
  | cons t0 ts ih =>
    intro hn f q
    have hn0 : t0.name ∉ taskNames ts := by
      have := hn
      simp only [taskNames, List.map_cons, List.nodup_cons] at this
      exact this.1
    have hnt : (taskNames ts).Nodup := by
      have := hn
      simp only [taskNames, List.map_cons, List.nodup_cons] at this
      exact this.2
    have hne : ∀ t ∈ ts, t.name ≠ t0.name := by
      intro t ht heq
      exact hn0 (heq ▸ List.mem_map_of_mem _ ht)
    by_cases hc : current ∈ t0.depends_on
    · have hstep : decStep current (f, q) t0 =
          (fun m => if m = t0.name then f t0.name - 1 else f m,
            if f t0.name - 1 = 0 then q ++ [t0.name] else q) := by
        unfold decStep
        rw [if_pos hc]
        by_cases hz : f t0.name - 1 = 0 <;> simp [hz]
      have hfold : (t0 :: ts).foldl (decStep current) (f, q)
          = ts.foldl (decStep current) (decStep current (f, q) t0) := rfl
      rw [hfold, hstep]
      set f1 : String → Int := fun m => if m = t0.name then f t0.name - 1 else f m with hf1
      set q1 : List String := if f t0.name - 1 = 0 then q ++ [t0.name] else q with hq1
      obtain ⟨ihval, ihq⟩ := ih hnt f1 q1
      have hf1eq : ∀ t ∈ ts, f1 t.name = f t.name := by
        intro t ht
        rw [hf1]
        simp only [if_neg (hne t ht)]
      constructor
      · intro n
        constructor
        · rintro ⟨t, hmem, hname, hcin⟩
          rcases List.mem_cons.mp hmem with rfl | hmem2
          · have hnots : ¬ (∃ t ∈ ts, t.name = n ∧ current ∈ t.depends_on) := by
              rintro ⟨t2, ht2, hname2, _⟩
              exact hne t2 ht2 (hname2.trans hname.symm)
            rw [(ihval n).2 hnots, hf1, ← hname]
            simp
          · have : f1 n = f n := by
              rw [hf1]
              have : n ≠ t0.name := hname ▸ hne t hmem2
              simp only [if_neg this]
            rw [(ihval n).1 ⟨t, hmem2, hname, hcin⟩, this]
        · intro hnone
          have hnots : ¬ (∃ t ∈ ts, t.name = n ∧ current ∈ t.depends_on) := by
            rintro ⟨t2, ht2, hname2, hcin2⟩
            exact hnone ⟨t2, List.mem_cons_of_mem _ ht2, hname2, hcin2⟩
          have hne0 : t0.name ≠ n := by
            intro heq
            exact hnone ⟨t0, List.mem_cons_self _ _, heq, hc⟩
          rw [(ihval n).2 hnots, hf1]
          simp only [if_neg (Ne.symm hne0)]
      · rw [ihq]
        have hfc : ts.filter (fun t => decide (current ∈ t.depends_on) &&
              decide (f1 t.name = 1))
            = ts.filter (fun t => decide (current ∈ t.depends_on) &&
              decide (f t.name = 1)) := by
          apply List.filter_congr
          intro t ht
          rw [hf1eq t ht]
        rw [hfc]
        have hz1 : (f t0.name - 1 = 0) ↔ (f t0.name = 1) := by omega
        by_cases hz : f t0.name = 1
        · rw [hq1, if_pos (hz1.mpr hz)]
          rw [List.filter_cons_of_pos (by simp [hc, hz])]
          simp
        · rw [hq1, if_neg (fun h => hz (hz1.mp h))]
          rw [List.filter_cons_of_neg (by simp [hc, hz])]
    · have hstep : decStep current (f, q) t0 = (f, q) := by
        unfold decStep
        rw [if_neg hc]
      have hfold : (t0 :: ts).foldl (decStep current) (f, q)
          = ts.foldl (decStep current) (decStep current (f, q) t0) := rfl
      rw [hfold, hstep]
      obtain ⟨ihval, ihq⟩ := ih hnt f q
      constructor
      · intro n
        constructor
        · rintro ⟨t, hmem, hname, hcin⟩
          rcases List.mem_cons.mp hmem with rfl | hmem2
          · exact absurd hcin hc
          · exact (ihval n).1 ⟨t, hmem2, hname, hcin⟩
        · intro hnone
          refine (ihval n).2 ?_
          rintro ⟨t2, ht2, hname2, hcin2⟩
          exact hnone ⟨t2, List.mem_cons_of_mem _ ht2, hname2, hcin2⟩
      · rw [ihq, List.filter_cons_of_neg (by simp [hc])]

/-- Emitting one more node splits the not-yet-emitted count of a
dependency list into the count against the longer prefix plus the
occurrences of the newly emitted node. -/
theorem filter_notmem_split (l : List String) (seen : List String) (c : String)
    (hc : c ∉ seen) :
    (l.filter (fun d => decide (d ∉ seen ++ [c]))).length +
        (l.filter (fun d => decide (d = c))).length =
      (l.filter (fun d => decide (d ∉ seen))).length := by
  induction l with
  | nil => rfl
  | cons d ds ih =>
    by_cases hd : d = c
    · subst hd
      rw [List.filter_cons_of_neg (by simp), List.filter_cons_of_pos (by simp),
        List.filter_cons_of_pos (by simpa using hc)]
      simp only [List.length_cons]
      omega
    · by_cases hds : d ∈ seen
      · rw [List.filter_cons_of_neg (by simp [hds]),
          List.filter_cons_of_neg (by simp [hd]),
          List.filter_cons_of_neg (by simp [hds])]
        exact ih
      · rw [List.filter_cons_of_pos (by simp [hds, hd]),
          List.filter_cons_of_neg (by simp [hd]),
          List.filter_cons_of_pos (by simp [hds])]
        simp only [List.length_cons]
        omega

/-- A positive occurrence count is membership. -/
theorem filter_eq_pos_iff (l : List String) (c : String) :
    0 < (l.filter (fun d => decide (d = c))).length ↔ c ∈ l := by
  rw [← List.countP_eq_length_filter, List.countP_pos_iff]
  constructor
  · rintro ⟨a, ha, hp⟩
    simp only [decide_eq_true_eq] at hp
    exact hp ▸ ha
  · intro h
    exact ⟨c, h, by simp⟩

/-- Without duplicates a name occurs at most once. -/
theorem filter_eq_le_one (l : List String) (c : String) (h : l.Nodup) :
    (l.filter (fun d => decide (d = c))).length ≤ 1 := by
  rw [← List.countP_eq_length_filter]
  have hcongr : l.countP (fun d => decide (d = c)) = l.count c := by
    rw [List.count_eq_countP]
    apply List.countP_congr
    intro a _
    by_cases hac : a = c <;> simp [hac]
  rw [hcongr]
  exact List.nodup_iff_count_le_one.mp h c

/-- Monotonicity of the dependencies-emitted predicate in the prefix. -/
theorem depsDone_mono {V : Type} {tasks : List (TaskNode V)}
    {seen seen2 : List String} (hsub : ∀ x ∈ seen, x ∈ seen2) {n : String}
    (h : depsDone tasks seen n) : depsDone tasks seen2 n :=
  fun t ht hname d hd => hsub d (h t ht hname d hd)

/-- One iteration of the Kahn loop preserves the loop invariant: the
head of the queue is emitted, the decrement pass updates the table, and
the newly ready names join the back of the queue. -/
theorem kahn_step_inv {V : Type} {tasks : List (TaskNode V)}
    (hn : (taskNames tasks).Nodup) {f : String → Int}
    {current : String} {rest order : List String}
    (inv : KahnInv tasks f (current :: rest) order) :
    KahnInv tasks (tasks.foldl (decStep current) (f, rest)).1
      (tasks.foldl (decStep current) (f, rest)).2 (order ++ [current]) := by
  obtain ⟨hval, hq⟩ := decFold_char current tasks hn f rest
  have hcurq : current ∈ order ++ current :: rest :=
    List.mem_append_right _ (List.mem_cons_self _ _)
  have hcur_names : current ∈ taskNames tasks := inv.subset current hcurq
  have hcur_notorder : current ∉ order := by
    intro hmem
    have hnd := inv.nodup
    rw [List.nodup_append] at hnd
    exact hnd.2.2 hmem (List.mem_cons_self _ _)
  have hnewly_spec : ∀ x ∈ (tasks.filter (fun t => decide (current ∈ t.depends_on) &&
      decide (f t.name = 1))).map (fun t => t.name),
      x ∈ taskNames tasks ∧ f x = 1 ∧
        ∃ t ∈ tasks, t.name = x ∧ current ∈ t.depends_on := by
    intro x hx
    rcases List.mem_map.mp hx with ⟨t, htf, rfl⟩
    rcases List.mem_filter.mp htf with ⟨htm, hcond⟩
    simp only [Bool.and_eq_true, decide_eq_true_eq] at hcond
    exact ⟨List.mem_map_of_mem _ htm, hcond.2, t, htm, rfl, hcond.1⟩
  have hnewly_nodup : ((tasks.filter (fun t => decide (current ∈ t.depends_on) &&
      decide (f t.name = 1))).map (fun t => t.name)).Nodup :=
    List.Nodup.sublist (List.Sublist.map _ (List.filter_sublist _)) hn
  have hold_or : ∀ n, n ∈ order ++ current :: rest →
      n ∈ order ∨ n = current ∨ n ∈ rest := by
    intro n hmem
    rcases List.mem_append.mp hmem with h | h
    · exact Or.inl h
    · rcases List.mem_cons.mp h with h | h
      · exact Or.inr (Or.inl h)
      · exact Or.inr (Or.inr h)
  have hmem_or : ∀ n, n ∈ (order ++ [current]) ++
      (rest ++ (tasks.filter (fun t => decide (current ∈ t.depends_on) &&
        decide (f t.name = 1))).map (fun t => t.name)) →
      n ∈ order ++ current :: rest ∨
        n ∈ (tasks.filter (fun t => decide (current ∈ t.depends_on) &&
          decide (f t.name = 1))).map (fun t => t.name) := by
    intro n hmem
    rcases List.mem_append.mp hmem with h | h
    · rcases List.mem_append.mp h with h2 | h2
      · exact Or.inl (List.mem_append_left _ h2)
      · rcases List.mem_singleton.mp h2 with rfl
        exact Or.inl hcurq
    · rcases List.mem_append.mp h with h2 | h2
      · exact Or.inl (List.mem_append_right _ (List.mem_cons_of_mem _ h2))
      · exact Or.inr h2
  -- the new in-degree bounds, proved first since readiness relies on them
  have hdegGe : ∀ t ∈ tasks,
      ((t.depends_on.filter (fun d => decide (d ∉ order ++ [current]))).length : Int)
        ≤ (tasks.foldl (decStep current) (f, rest)).1 t.name := by
    intro t ht
    have hsplit := filter_notmem_split t.depends_on order current hcur_notorder
    have hold := inv.degGe t ht
    by_cases hcdep : current ∈ t.depends_on
    · rw [(hval t.name).1 ⟨t, ht, rfl, hcdep⟩]
      have hcnt : 0 < (t.depends_on.filter (fun d => decide (d = current))).length :=
        (filter_eq_pos_iff _ _).mpr hcdep
      omega
    · have hnodec : ¬ ∃ t2 ∈ tasks, t2.name = t.name ∧ current ∈ t2.depends_on := by
        rintro ⟨t2, ht2, hname2, hcin2⟩
        exact hcdep (nodup_name_inj hn ht2 ht hname2 ▸ hcin2)
      rw [(hval t.name).2 hnodec]
      have hcnt : (t.depends_on.filter (fun d => decide (d = current))).length = 0 := by
        rcases Nat.eq_zero_or_pos
          (t.depends_on.filter (fun d => decide (d = current))).length with h | h
        · exact h
        · exact absurd ((filter_eq_pos_iff _ _).mp h) hcdep
      omega
  have hdegLe : (∀ t ∈ tasks, t.depends_on.Nodup) → ∀ t ∈ tasks,
      (tasks.foldl (decStep current) (f, rest)).1 t.name ≤
        ((t.depends_on.filter (fun d => decide (d ∉ order ++ [current]))).length : Int) := by
    intro hd t ht
    have hsplit := filter_notmem_split t.depends_on order current hcur_notorder
    have hold := inv.degLe hd t ht
    by_cases hcdep : current ∈ t.depends_on
    · rw [(hval t.name).1 ⟨t, ht, rfl, hcdep⟩]
      have hcnt1 : 0 < (t.depends_on.filter (fun d => decide (d = current))).length :=
        (filter_eq_pos_iff _ _).mpr hcdep
      have hcnt2 := filter_eq_le_one t.depends_on current (hd t ht)
      omega
    · have hnodec : ¬ ∃ t2 ∈ tasks, t2.name = t.name ∧ current ∈ t2.depends_on := by
        rintro ⟨t2, ht2, hname2, hcin2⟩
        exact hcdep (nodup_name_inj hn ht2 ht hname2 ▸ hcin2)
      rw [(hval t.name).2 hnodec]
      have hcnt : (t.depends_on.filter (fun d => decide (d = current))).length = 0 := by
        rcases Nat.eq_zero_or_pos
          (t.depends_on.filter (fun d => decide (d = current))).length with h | h
        · exact h
        · exact absurd ((filter_eq_pos_iff _ _).mp h) hcdep
      omega
  refine ⟨?_, ?_, ?_, ?_, ?_, ?_, hdegGe, hdegLe⟩
  · -- nodup
    rw [hq, show (order ++ [current]) ++
        (rest ++ (tasks.filter (fun t => decide (current ∈ t.depends_on) &&
          decide (f t.name = 1))).map (fun t => t.name))
        = (order ++ current :: rest) ++
          (tasks.filter (fun t => decide (current ∈ t.depends_on) &&
            decide (f t.name = 1))).map (fun t => t.name) by simp]
    rw [List.nodup_append]
    refine ⟨inv.nodup, hnewly_nodup, ?_⟩
    intro x hx1 hx2
    have := inv.nonposTouched x hx1
    have := (hnewly_spec x hx2).2.1
    omega
  · -- subset
    intro n hmem
    rw [hq] at hmem
    rcases hmem_or n hmem with h | h
    · exact inv.subset n h
    · exact (hnewly_spec n h).1
  · -- posUntouched
    intro n hnames hnot
    rw [hq] at hnot
    have hnot_old : n ∉ order ++ current :: rest := by
      intro h
      rcases hold_or n h with h2 | h2 | h2
      · exact hnot (List.mem_append_left _ (List.mem_append_left _ h2))
      · exact hnot (List.mem_append_left _
          (List.mem_append_right _ (h2 ▸ List.mem_singleton_self _)))
      · exact hnot (List.mem_append_right _ (List.mem_append_left _ h2))
    have hnot_newly : n ∉ (tasks.filter (fun t => decide (current ∈ t.depends_on) &&
        decide (f t.name = 1))).map (fun t => t.name) := by
      intro h
      exact hnot (List.mem_append_right _ (List.mem_append_right _ h))
    have hold := inv.posUntouched n hnames hnot_old
    by_cases hdec : ∃ t ∈ tasks, t.name = n ∧ current ∈ t.depends_on
    · rw [(hval n).1 hdec]
      have hne1 : f n ≠ 1 := by
        intro h1
        rcases hdec with ⟨t, ht, hname, hcin⟩
        refine hnot_newly ?_
        rw [← hname]
        refine List.mem_map_of_mem _ (List.mem_filter.mpr ⟨ht, ?_⟩)
        simp only [Bool.and_eq_true, decide_eq_true_eq]
        exact ⟨hcin, by rw [hname]; exact h1⟩
      omega
    · rw [(hval n).2 hdec]
      exact hold
  · -- nonposTouched
    intro n hmem
    rw [hq] at hmem
    have hupper : (tasks.foldl (decStep current) (f, rest)).1 n ≤ f n := by
      by_cases hdec : ∃ t ∈ tasks, t.name = n ∧ current ∈ t.depends_on
      · rw [(hval n).1 hdec]; omega
      · rw [(hval n).2 hdec]
    rcases hmem_or n hmem with h | h
    · have := inv.nonposTouched n h
      omega
    · have h1 := (hnewly_spec n h).2.1
      rcases (hnewly_spec n h).2.2 with ⟨t, ht, hname, hcin⟩
      rw [(hval n).1 ⟨t, ht, hname, hcin⟩]
      omega
  · -- sorted
    intro k hk
    by_cases hklt : k < order.length
    · have hget : (order ++ [current]).get ⟨k, hk⟩ = order.get ⟨k, hklt⟩ := by
        rw [List.get_append _ hklt]
      have htake : (order ++ [current]).take k = order.take k :=
        List.take_append_of_le_length (Nat.le_of_lt hklt)
      rw [hget, htake]
      exact inv.sorted k hklt
    · have hkeq : k = order.length := by
        simp only [List.length_append, List.length_singleton] at hk
        omega
      subst hkeq
      have hget : (order ++ [current]).get ⟨order.length, hk⟩ = current := by
        simp
      have htake : (order ++ [current]).take order.length = order :=
        List.take_left order [current]
      rw [hget, htake]
      exact inv.ready current (List.mem_cons_self _ _)
  · -- ready
    intro n hmem
    rw [hq] at hmem
    rcases List.mem_append.mp hmem with h | h
    · exact depsDone_mono (fun x hx => List.mem_append_left _ hx)
        (inv.ready n (List.mem_cons_of_mem _ h))
    · rcases (hnewly_spec n h).2.2 with ⟨t, ht, hname, hcin⟩
      have hf1 := (hnewly_spec n h).2.1
      have hzero : (tasks.foldl (decStep current) (f, rest)).1 n = 0 := by
        rw [(hval n).1 ⟨t, ht, hname, hcin⟩, hf1]
        omega
      have hlen0 : (t.depends_on.filter
          (fun d => decide (d ∉ order ++ [current]))).length = 0 := by
        have := hdegGe t ht
        rw [hname, hzero] at this
        omega
      have hfilnil : t.depends_on.filter
          (fun d => decide (d ∉ order ++ [current])) = [] :=
        List.length_eq_zero.mp hlen0
      intro t2 ht2 hname2 d hd
      have ht2t : t2 = t := nodup_name_inj hn ht2 ht (hname2.trans hname.symm)
      subst ht2t
      by_contra hdnot
      have : d ∈ t2.depends_on.filter (fun d => decide (d ∉ order ++ [current])) :=
        List.mem_filter.mpr ⟨hd, by simpa using hdnot⟩
      rw [hfilnil] at this
      exact absurd this (List.not_mem_nil d)

/-- A list without duplicates that draws from another list is at most as
long. -/
theorem nodup_subset_length_le {l names : List String} (hnd : l.Nodup)
    (hsub : ∀ x ∈ l, x ∈ names) : l.length ≤ names.length := by
  have h1 : l.toFinset.card = l.length := List.toFinset_card_of_nodup hnd
  have h2 : l.toFinset ⊆ names.toFinset := by
    intro x hx
    exact List.mem_toFinset.mpr (hsub x (List.mem_toFinset.mp hx))
  calc l.length = l.toFinset.card := h1.symm
    _ ≤ names.toFinset.card := Finset.card_le_card h2
    _ ≤ names.length := List.toFinset_card_le names

/-- Running the Kahn loop from an invariant state with fuel
`tasks.length` keeps the invariant, extends the emitted order, and —
the crux of termination — always drains the queue: the bounded
recursion coincides with Python's unbounded `while queue:` loop. -/
theorem kahnLoop_inv {V : Type} {tasks : List (TaskNode V)}
    (hn : (taskNames tasks).Nodup) :
    ∀ (fuel : Nat) (queue : List String) (f : String → Int)
      (order : List String), KahnInv tasks f queue order →
      ∃ f2, KahnInv tasks f2 (kahnLoop tasks fuel queue f order).2
          (kahnLoop tasks fuel queue f order).1 ∧
        (∃ ext, (kahnLoop tasks fuel queue f order).1 = order ++ ext) ∧
        (tasks.length ≤ fuel + order.length →
          (kahnLoop tasks fuel queue f order).2 = []) := by
  intro fuel
  induction fuel with
  | zero =>
    intro queue f order inv
    refine ⟨f, inv, ⟨[], by simp [kahnLoop]⟩, ?_⟩
    intro hle
    show queue = []
    have hlen : order.length + queue.length ≤ (taskNames tasks).length := by
      have := nodup_subset_length_le inv.nodup inv.subset
      simpa using this
    have hnames_len : (taskNames tasks).length = tasks.length := by
      simp [taskNames]
    rw [← List.length_eq_zero]
    omega
  | succ fuel ih =>
    intro queue f order inv
    cases queue with
    | nil =>
      exact ⟨f, inv, ⟨[], by simp [kahnLoop]⟩, fun _ => rfl⟩
    | cons current rest =>
      have hstep := kahn_step_inv hn inv
      have hrec := ih (tasks.foldl (decStep current) (f, rest)).2
        (tasks.foldl (decStep current) (f, rest)).1 (order ++ [current]) hstep
      rcases hrec with ⟨f2, hinv2, ⟨ext, hext⟩, hdrain⟩
      refine ⟨f2, hinv2, ⟨[current] ++ ext, ?_⟩, ?_⟩
      · rw [show kahnLoop tasks (fuel + 1) (current :: rest) f order
            = kahnLoop tasks fuel (tasks.foldl (decStep current) (f, rest)).2
              (tasks.foldl (decStep current) (f, rest)).1 (order ++ [current])
            from rfl]
        rw [hext]
        simp
      · intro hle
        rw [show kahnLoop tasks (fuel + 1) (current :: rest) f order
            = kahnLoop tasks fuel (tasks.foldl (decStep current) (f, rest)).2
              (tasks.foldl (decStep current) (f, rest)).1 (order ++ [current])
            from rfl]
        refine hdrain ?_
        simp only [List.length_append, List.length_singleton]
        omega

/-- Exactly one table entry carries the name of a registered task. -/
theorem filter_name_eq_single {V : Type} {tasks : List (TaskNode V)}
    (hn : (taskNames tasks).Nodup) {t : TaskNode V} (ht : t ∈ tasks) :
    tasks.filter (fun u => decide (u.name = t.name)) = [t] := by
  induction tasks with
  | nil => exact absurd ht (List.not_mem_nil t)
  | cons t0 ts ih =>
    have hn0 : t0.name ∉ taskNames ts := by
      have := hn
      simp only [taskNames, List.map_cons, List.nodup_cons] at this
      exact this.1
    have hnt : (taskNames ts).Nodup := by
      have := hn
      simp only [taskNames, List.map_cons, List.nodup_cons] at this
      exact this.2
    rcases List.mem_cons.mp ht with rfl | hts
    · rw [List.filter_cons_of_pos (by simp)]
      have : ts.filter (fun u => decide (u.name = t.name)) = [] := by
        rw [List.filter_eq_nil_iff]
        intro u hu
        simp only [decide_eq_true_eq]
        intro heq
        exact hn0 (heq ▸ List.mem_map_of_mem _ hu)
      rw [this]
    · have hne : t0.name ≠ t.name := by
        intro heq
        exact hn0 (heq ▸ List.mem_map_of_mem _ hts)
      rw [List.filter_cons_of_neg (by simp [hne])]
      exact ih hnt hts

/-- Building the degrees over a fully resolving suffix succeeds, and the
final counter of a name adds the dependency-list lengths of the suffix
tasks carrying that name. -/
theorem buildInDegrees_ok {V : Type} (tasks : List (TaskNode V)) :
    ∀ (rem : List (TaskNode V)) (f : String → Int),
      (∀ t ∈ rem, ∀ d ∈ t.depends_on, d ∈ taskNames tasks) →
      ∃ f2, buildInDegrees tasks rem f = .ok f2 ∧
        ∀ m, f2 m = f m +
          (((rem.filter (fun t => decide (t.name = m))).map
            (fun t => (t.depends_on.length : Int))).sum) := by
  intro rem
  induction rem with
  | nil =>
    intro f _
    exact ⟨f, rfl, fun m => by simp⟩
  | cons t0 ts ih =>
    intro f h
    rcases addTaskDegrees_ok tasks t0 t0.depends_on f
      (fun d hd => h t0 (List.mem_cons_self _ _) d hd) with ⟨f1, heq1, hval1⟩
    rcases ih f1 (fun t ht d hd => h t (List.mem_cons_of_mem _ ht) d hd)
      with ⟨f2, heq2, hval2⟩
    refine ⟨f2, ?_, ?_⟩
    · unfold buildInDegrees
      rw [heq1]
      exact heq2
    · intro m
      rw [hval2 m, hval1 m]
      by_cases hm : m = t0.name
      · rw [if_pos hm, List.filter_cons_of_pos (by simp [hm])]
        simp only [List.map_cons, List.sum_cons]
        ring
      · rw [if_neg hm, List.filter_cons_of_neg (by simp [Ne.symm hm])]

/-- The seed state of Kahn's algorithm satisfies the loop invariant. -/
theorem kahn_init {V : Type} {tasks : List (TaskNode V)}
    (hn : (taskNames tasks).Nodup) {f : String → Int}
    (hfval : ∀ t ∈ tasks, f t.name = (t.depends_on.length : Int)) :
    KahnInv tasks f
      ((tasks.filter (fun t => decide (f t.name = 0))).map (fun t => t.name))
      [] := by
  have hseed_spec : ∀ x ∈ (tasks.filter (fun t => decide (f t.name = 0))).map
      (fun t => t.name), f x = 0 ∧ x ∈ taskNames tasks := by
    intro x hx
    rcases List.mem_map.mp hx with ⟨t, htf, rfl⟩
    rcases List.mem_filter.mp htf with ⟨htm, hcond⟩
    simp only [decide_eq_true_eq] at hcond
    exact ⟨hcond, List.mem_map_of_mem _ htm⟩
  refine ⟨?_, ?_, ?_, ?_, ?_, ?_, ?_, ?_⟩
  · simpa using
      List.Nodup.sublist (List.Sublist.map _ (List.filter_sublist _)) hn
  · intro n hmem
    rw [List.nil_append] at hmem
    exact (hseed_spec n hmem).2
  · intro n hnames hnot
    rw [List.nil_append] at hnot
    rcases List.mem_map.mp hnames with ⟨t, htm, rfl⟩
    have hge : (0 : Int) ≤ f t.name := by
      rw [hfval t htm]
      positivity
    have hne : f t.name ≠ 0 := by
      intro h0
      exact hnot (List.mem_map_of_mem _
        (List.mem_filter.mpr ⟨htm, by simp [h0]⟩))
    omega
  · intro n hmem
    rw [List.nil_append] at hmem
    rw [(hseed_spec n hmem).1]
  · intro k hk
    exact absurd hk (by simp)
  · intro n hmem t ht hname d hd
    have h0 := (hseed_spec n hmem).1
    have hlen : ((t.depends_on.length : Int)) = 0 := by
      rw [← hfval t ht, hname, h0]
    have : t.depends_on = [] := by
      rw [← List.length_eq_zero]
      exact_mod_cast hlen
    rw [this] at hd
    exact absurd hd (List.not_mem_nil d)
  · intro t ht
    have : t.depends_on.filter (fun d => decide (d ∉ ([] : List String)))
        = t.depends_on := by
      rw [List.filter_eq_self]
      intro a _
      simp
    rw [this, hfval t ht]
  · intro _ t ht
    have : t.depends_on.filter (fun d => decide (d ∉ ([] : List String)))
        = t.depends_on := by
      rw [List.filter_eq_self]
      intro a _
      simp
    rw [this, hfval t ht]

/-- Outcome analysis of the scheduler on a resolving table: either it
emits a duplicate-free complete order whose every position has its
dependencies emitted strictly earlier, or it raises the cycle error and
(when no dependency list has duplicates) the uncovered names form a
nonempty set in which every member depends on a member. -/
theorem topological_sort_cases {V : Type} (g : DAG V)
    (hn : (taskNames g.tasks).Nodup)
    (hres : ∀ t ∈ g.tasks, ∀ d ∈ t.depends_on, d ∈ taskNames g.tasks) :
    (∃ order, g.topological_sort = .ok order ∧ order.Nodup ∧
        (∀ n ∈ order, n ∈ taskNames g.tasks) ∧
        (∀ (k : Nat) (hk : k < order.length),
          depsDone g.tasks (order.take k) (order.get ⟨k, hk⟩)) ∧
        order.length = g.tasks.length) ∨
    (g.topological_sort = .error .cycle ∧
      ((∀ t ∈ g.tasks, t.depends_on.Nodup) →
        ∃ R : List String, R ≠ [] ∧
          ∀ r ∈ R, ∃ t ∈ g.tasks, t.name = r ∧ ∃ d ∈ t.depends_on, d ∈ R)) := by
  obtain ⟨f0, hbuild, hchar⟩ := buildInDegrees_ok g.tasks g.tasks (fun _ => 0) hres
  have hfval : ∀ t ∈ g.tasks, f0 t.name = (t.depends_on.length : Int) := by
    intro t ht
    rw [hchar t.name, filter_name_eq_single hn ht]
    simp
  have hinit := kahn_init hn hfval
  obtain ⟨f2, hinv, ⟨ext, hext⟩, hdrain⟩ :=
    kahnLoop_inv hn g.tasks.length _ f0 [] hinit
  set KL := kahnLoop g.tasks g.tasks.length
    ((g.tasks.filter (fun t => decide (f0 t.name = 0))).map (fun t => t.name))
    f0 [] with hKL
  have hqnil : KL.2 = [] := hdrain (by simp)
  have hsort : g.topological_sort =
      if KL.1.length = g.tasks.length then .ok KL.1 else .error .cycle := by
    unfold DAG.topological_sort
    rw [hbuild]
  have hnodup : KL.1.Nodup := by
    have := hinv.nodup
    rw [hqnil] at this
    simpa using this
  have hsub : ∀ n ∈ KL.1, n ∈ taskNames g.tasks := by
    intro n h
    exact hinv.subset n (by rw [hqnil]; simpa using h)
  by_cases hlen : KL.1.length = g.tasks.length
  · exact Or.inl ⟨KL.1, by rw [hsort, if_pos hlen], hnodup, hsub,
      hinv.sorted, hlen⟩
  · refine Or.inr ⟨by rw [hsort, if_neg hlen], ?_⟩
    intro hdnodup
    refine ⟨(taskNames g.tasks).filter (fun m => decide (m ∉ KL.1)), ?_, ?_⟩
    · intro hemp
      have hle := nodup_subset_length_le hnodup hsub
      have hnl : (taskNames g.tasks).length = g.tasks.length := by simp [taskNames]
      have hsubn : ∀ m ∈ taskNames g.tasks, m ∈ KL.1 := by
        intro m hm
        by_contra hnm
        have : m ∈ (taskNames g.tasks).filter (fun m => decide (m ∉ KL.1)) :=
          List.mem_filter.mpr ⟨hm, by simpa using hnm⟩
        rw [hemp] at this
        exact absurd this (List.not_mem_nil m)
      have := nodup_subset_length_le hn hsubn
      omega
    · intro r hr
      rcases List.mem_filter.mp hr with ⟨hrn, hrd⟩
      simp only [decide_eq_true_eq] at hrd
      rcases List.mem_map.mp hrn with ⟨t, htm, rfl⟩
      refine ⟨t, htm, rfl, ?_⟩
      have hpos : 1 ≤ f2 t.name := by
        refine hinv.posUntouched t.name hrn ?_
        rw [hqnil]
        simpa using hrd
      have hle := hinv.degLe hdnodup t htm
      have hlen1 : 0 < (t.depends_on.filter (fun d => decide (d ∉ KL.1))).length := by
        omega
      obtain ⟨d, hdmem⟩ := List.exists_mem_of_length_pos hlen1
      rcases List.mem_filter.mp hdmem with ⟨hdd, hdnot⟩
      simp only [decide_eq_true_eq] at hdnot
      exact ⟨d, hdd,
        List.mem_filter.mpr ⟨hres t htm d hdd, by simpa using hdnot⟩⟩

/-- allDepsResolve unfolded to name-column membership. -/
theorem allDepsResolve_iff {V : Type} (g : DAG V) :
    g.allDepsResolve ↔
      ∀ t ∈ g.tasks, ∀ d ∈ t.depends_on, d ∈ taskNames g.tasks := by
  constructor
  · intro h t ht d hd
    exact (resolves_iff g d).mp (h t ht d hd)
  · intro h t ht d hd
    exact (resolves_iff g d).mpr (h t ht d hd)

/-- A rank function decreasing along every dependency edge certifies
acyclicity. -/
theorem acyclic_of_rank {V : Type} (g : DAG V) (rank : String → Nat)
    (h : ∀ t ∈ g.tasks, ∀ d ∈ t.depends_on, rank d < rank t.name) :
    g.Acyclic := by
  have hstep : ∀ a b, g.dependsOn a b → rank b < rank a := by
    rintro a b ⟨t, ht, rfl, hd⟩
    exact h t ht b hd
  have htrans : ∀ a b, Relation.TransGen g.dependsOn a b → rank b < rank a := by
    intro a b hab
    induction hab with
    | single h1 => exact hstep _ _ h1
    | tail _ h1 ih => exact lt_trans (hstep _ _ h1) ih
  intro a ha
  exact lt_irrefl _ (htrans a a ha)

/-- The first occurrence of a member of a prefix lies inside the prefix. -/
theorem indexOf_lt_of_mem_take {l : List String} {d : String} :
    ∀ {k : Nat}, d ∈ l.take k → l.indexOf d < k := by
  induction l with
  | nil => intro k h; simp at h
  | cons x xs ih =>
    intro k h
    cases k with
    | zero => simp at h
    | succ k =>
      rw [List.take_succ_cons] at h
      by_cases hdx : d = x
      · subst hdx
        rw [List.indexOf_cons_self]
        omega
      · rcases List.mem_cons.mp h with rfl | h2
        · exact absurd rfl hdx
        · rw [List.indexOf_cons_ne _ (fun he => hdx he.symm)]
          have := ih h2
          omega

/-- A list without duplicates drawing from equally many distinct names
covers all of them. -/
theorem order_perm_names {order names : List String} (hnodup : order.Nodup)
    (hsub : ∀ x ∈ order, x ∈ names) (hlen : order.length = names.length) :
    order.Perm names :=
  (List.subperm_of_subset hnodup hsub).perm_of_length_le (le_of_eq hlen.symm)

/-- In a complete dependency-sorted order, every edge points strictly
backwards. -/
theorem sorted_indexOf_lt {V : Type} {g : DAG V} {order : List String}
    (hsorted : ∀ (k : Nat) (hk : k < order.length),
      depsDone g.tasks (order.take k) (order.get ⟨k, hk⟩))
    (hcomplete : ∀ n ∈ taskNames g.tasks, n ∈ order) :
    ∀ a b, g.dependsOn a b → order.indexOf b < order.indexOf a := by
  rintro a b ⟨t, ht, rfl, hbdep⟩
  have ha : t.name ∈ order := hcomplete _ (List.mem_map_of_mem _ ht)
  have hka : order.indexOf t.name < order.length :=
    List.indexOf_lt_length.mpr ha
  have hget : order.get ⟨order.indexOf t.name, hka⟩ = t.name :=
    List.indexOf_get hka
  have hdd := hsorted _ hka
  rw [hget] at hdd
  exact indexOf_lt_of_mem_take (hdd t ht rfl b hbdep)

/-- A complete dependency-sorted order excludes dependency cycles. -/
theorem not_transGen_of_sorted {V : Type} {g : DAG V} {order : List String}
    (hsorted : ∀ (k : Nat) (hk : k < order.length),
      depsDone g.tasks (order.take k) (order.get ⟨k, hk⟩))
    (hcomplete : ∀ n ∈ taskNames g.tasks, n ∈ order) :
    ∀ a, ¬ Relation.TransGen g.dependsOn a a := by
  have hstep := sorted_indexOf_lt hsorted hcomplete
  have htrans : ∀ a b, Relation.TransGen g.dependsOn a b →
      order.indexOf b < order.indexOf a := by
    intro a b hab
    induction hab with
    | single h1 => exact hstep _ _ h1
    | tail _ h1 ih => exact lt_trans (hstep _ _ h1) ih
  intro a ha
  exact lt_irrefl _ (htrans a a ha)

/-- A nonempty finite set of names in which every member steps to a
member contains a relation cycle. -/
theorem cycle_of_succ {r : String → String → Prop} (R : List String)
    (hne : R ≠ []) (hsucc : ∀ a ∈ R, ∃ b ∈ R, r a b) :
    ∃ a, Relation.TransGen r a a := by
  classical
  have hex : ∀ a, ∃ b, (a ∈ R → b ∈ R ∧ r a b) := by
    intro a
    by_cases ha : a ∈ R
    · rcases hsucc a ha with ⟨b, hbR, hab⟩
      exact ⟨b, fun _ => ⟨hbR, hab⟩⟩
    · exact ⟨a, fun h => absurd h ha⟩
  choose F hF using hex
  obtain ⟨a0, ha0⟩ : ∃ a, a ∈ R := by
    cases R with
    | nil => exact absurd rfl hne
    | cons x xs => exact ⟨x, List.mem_cons_self _ _⟩
  have hgR : ∀ n, F^[n] a0 ∈ R := by
    intro n
    induction n with
    | zero => exact ha0
    | succ n ih =>
      rw [Function.iterate_succ_apply' F n a0]
      exact (hF _ ih).1
  have hstep : ∀ n, r (F^[n] a0) (F^[n + 1] a0) := by
    intro n
    rw [Function.iterate_succ_apply' F n a0]
    exact (hF _ (hgR n)).2
  have hchain : ∀ j i, i < j → Relation.TransGen r (F^[i] a0) (F^[j] a0) := by
    intro j
    induction j with
    | zero => intro i hij; omega
    | succ j ih =>
      intro i hij
      by_cases hlt : i < j
      · exact Relation.TransGen.tail (ih i hlt) (hstep j)
      · have : i = j := by omega
        subst this
        exact Relation.TransGen.single (hstep i)
  have hmaps : ∀ n ∈ Finset.range (R.length + 1),
      F^[n] a0 ∈ R.toFinset := fun n _ => List.mem_toFinset.mpr (hgR n)
  have hcard : R.toFinset.card < (Finset.range (R.length + 1)).card := by
    rw [Finset.card_range]
    exact Nat.lt_succ_of_le (List.toFinset_card_le R)
  obtain ⟨i, _, j, _, hij, heq⟩ :=
    Finset.exists_ne_map_eq_of_card_lt_of_maps_to hcard hmaps
  rcases Nat.lt_or_ge i j with h | h
  · exact ⟨F^[i] a0, heq ▸ hchain j i h⟩
  · have h2 : j < i := lt_of_le_of_ne h (fun he => hij he.symm)
    exact ⟨F^[j] a0, heq ▸ hchain i j h2⟩

/-- C3: a resolving graph whose dependency relation has a cycle makes
both the scheduler and run fail with the cycle error — the bounded loop
provably plays out the full Python while-loop, so nothing hangs and no
order is returned — and run hands the DAG back untouched. -/
theorem claim_C3 {V : Type} (g : DAG V) (c : Ctx V)
    (hn : (taskNames g.tasks).Nodup) (hres : g.allDepsResolve)
    (hcyc : ∃ a, Relation.TransGen g.dependsOn a a) :
    g.topological_sort = .error .cycle ∧
      (g.run c).1 = .error .cycle ∧ (g.run c).2 = g := by
  have hres' : ∀ t ∈ g.tasks, ∀ d ∈ t.depends_on, d ∈ taskNames g.tasks :=
    (allDepsResolve_iff g).mp hres
  rcases topological_sort_cases g hn hres' with
    ⟨order, hok, hnodup, hsub, hsorted, hlen⟩ | ⟨herr, _⟩
  · exfalso
    have hperm := order_perm_names hnodup hsub (by rw [hlen]; simp [taskNames])
    have hcomplete : ∀ n ∈ taskNames g.tasks, n ∈ order :=
      fun n h => hperm.mem_iff.mpr h
    rcases hcyc with ⟨a, ha⟩
    exact not_transGen_of_sorted hsorted hcomplete a ha
  · exact ⟨herr, by rw [run_eq_of_sort_error herr], by
      rw [run_eq_of_sort_error herr]⟩

/-- Witness for C3 on the concrete two-node cycle. -/
theorem claim_C3_witness :
    gCycle.topological_sort = .error .cycle ∧
      (gCycle.run []).1 = .error .cycle ∧ (gCycle.run []).2 = gCycle := by
  refine claim_C3 gCycle [] (by decide) ((allDepsResolve_iff gCycle).mpr (by decide)) ?_
  refine ⟨"a", Relation.TransGen.head
    (⟨mkTask "a" (fun _ => .ok none) ["b"], List.mem_cons_self _ _, rfl,
      List.mem_cons_self _ _⟩ : gCycle.dependsOn "a" "b")
    (Relation.TransGen.single
      (⟨mkTask "b" (fun _ => .ok none) ["a"],
        List.mem_cons_of_mem _ (List.mem_cons_self _ _), rfl,
        List.mem_cons_self _ _⟩ : gCycle.dependsOn "b" "a"))⟩

/-- C1 is false as stated: gDupDep has pairwise-distinct task names, a
fully resolving and acyclic dependency relation (its only edge is
b → a), yet the scheduler raises the cycle error instead of returning a
permutation — the duplicate entry "a" in b's dependency list makes b's
in-degree 2 while the single completion of "a" decrements it only once. -/
theorem claim_C1_counterexample :
    (taskNames gDupDep.tasks).Nodup ∧ gDupDep.allDepsResolve ∧
      gDupDep.Acyclic ∧ gDupDep.topological_sort = .error .cycle :=
  ⟨by decide, (allDepsResolve_iff gDupDep).mpr (by decide),
    acyclic_of_rank gDupDep (fun n => if n = "b" then 1 else 0) (by decide),
    rfl⟩

/-- C1 amended: for a graph with pairwise-distinct task names whose
dependency relation is acyclic, whose dependency names all resolve, and
— the amendment forced by gDupDep — whose dependency lists carry no
duplicate entries, the scheduler returns a permutation of all node
names in which every node sits strictly after each of its direct
dependencies. -/
theorem claim_C1 {V : Type} (g : DAG V) (hn : (taskNames g.tasks).Nodup)
    (hres : g.allDepsResolve) (hdeps : ∀ t ∈ g.tasks, t.depends_on.Nodup)
    (hacy : g.Acyclic) :
    ∃ order, g.topological_sort = .ok order ∧
      order.Perm (taskNames g.tasks) ∧
      ∀ t ∈ g.tasks, ∀ d ∈ t.depends_on,
        order.indexOf d < order.indexOf t.name := by
  have hres' : ∀ t ∈ g.tasks, ∀ d ∈ t.depends_on, d ∈ taskNames g.tasks :=
    (allDepsResolve_iff g).mp hres
  rcases topological_sort_cases g hn hres' with
    ⟨order, hok, hnodup, hsub, hsorted, hlen⟩ | ⟨_, hR⟩
  · have hperm := order_perm_names hnodup hsub (by rw [hlen]; simp [taskNames])
    have hcomplete : ∀ n ∈ taskNames g.tasks, n ∈ order :=
      fun n h => hperm.mem_iff.mpr h
    refine ⟨order, hok, hperm, ?_⟩
    intro t ht d hd
    exact sorted_indexOf_lt hsorted hcomplete t.name d ⟨t, ht, rfl, hd⟩
  · exfalso
    rcases hR hdeps with ⟨R, hne, hsucc⟩
    have hsucc' : ∀ r2 ∈ R, ∃ b ∈ R, g.dependsOn r2 b := by
      intro r2 hr2
      rcases hsucc r2 hr2 with ⟨t, ht, hname, d, hd, hdR⟩
      exact ⟨d, hdR, t, ht, hname, hd⟩
    rcases cycle_of_succ R hne hsucc' with ⟨a, ha⟩
    exact hacy a ha

/-- Witness for C1 (amended) on gPair: the scheduler emits the expected
permutation with x before y. -/
theorem claim_C1_witness :
    ∃ order, gPair.topological_sort = .ok order ∧
      order.Perm (taskNames gPair.tasks) ∧
      ∀ t ∈ gPair.tasks, ∀ d ∈ t.depends_on,
        order.indexOf d < order.indexOf t.name :=
  claim_C1 gPair (by decide) ((allDepsResolve_iff gPair).mpr (by decide))
    (by decide)
    (acyclic_of_rank gPair (fun n => if n = "y" then 1 else 0) (by decide))

/-- Key membership unfolded. -/
theorem hasKey_eq {V : Type} (d : Ctx V) (x : String) :
    hasKey d x = true ↔ ∃ p ∈ d, p.1 = x := by
  unfold hasKey
  simp [List.any_eq_true]

/-- The key set after a single dict write: the old keys plus the written
key. -/
theorem hasKey_dictInsert {V : Type} (d : Ctx V) (k x : String) (v : V) :
    hasKey (dictInsert d k v) x = true ↔ (hasKey d x = true ∨ x = k) := by
  rw [hasKey_eq, hasKey_eq]
  unfold dictInsert
  by_cases hc : d.any (fun p => decide (p.1 = k)) = true
  · rw [if_pos hc]
    simp only [List.mem_map]
    constructor
    · rintro ⟨p, ⟨q, hq, rfl⟩, hpx⟩
      by_cases hqk : q.1 = k
      · rw [if_pos hqk] at hpx
        exact Or.inr hpx.symm
      · rw [if_neg hqk] at hpx
        exact Or.inl ⟨q, hq, hpx⟩
    · rintro (⟨q, hq, hqx⟩ | rfl)
      · by_cases hqk : q.1 = k
        · exact ⟨(k, v), ⟨q, hq, by rw [if_pos hqk]⟩, hqk.symm.trans hqx⟩
        · exact ⟨q, ⟨q, hq, by rw [if_neg hqk]⟩, hqx⟩
      · rw [List.any_eq_true] at hc
        rcases hc with ⟨q, hq, hqk⟩
        simp only [decide_eq_true_eq] at hqk
        exact ⟨(x, v), ⟨q, hq, by rw [if_pos hqk]⟩, rfl⟩
  · rw [if_neg hc]
    simp only [List.mem_append, List.mem_singleton]
    constructor
    · rintro ⟨p, hp | rfl, hpx⟩
      · exact Or.inl ⟨p, hp, hpx⟩
      · exact Or.inr hpx.symm
    · rintro (⟨p, hp, hpx⟩ | rfl)
      · exact ⟨p, Or.inl hp, hpx⟩
      · exact ⟨(x, v), Or.inr rfl, rfl⟩

/-- The key set after dict.update: the union of both key sets. -/
theorem hasKey_dictUpdate {V : Type} (b : Ctx V) :
    ∀ (a : Ctx V) (x : String),
      hasKey (dictUpdate a b) x = true ↔
        (hasKey a x = true ∨ hasKey b x = true) := by
  induction b with
  | nil =>
    intro a x
    simp [dictUpdate, hasKey]
  | cons p ps ih =>
    intro a x
    have hfold : dictUpdate a (p :: ps) = dictUpdate (dictInsert a p.1 p.2) ps := rfl
    rw [hfold, ih (dictInsert a p.1 p.2) x, hasKey_dictInsert]
    rw [hasKey_eq (p :: ps) x]
    simp only [List.mem_cons]
    constructor
    · rintro ((h | rfl) | h)
      · exact Or.inl h
      · exact Or.inr ⟨p, Or.inl rfl, rfl⟩
      · rcases (hasKey_eq ps x).mp h with ⟨q, hq, hqx⟩
        exact Or.inr ⟨q, Or.inr hq, hqx⟩
    · rintro (h | ⟨q, hq | hq, hqx⟩)
      · exact Or.inl (Or.inl h)
      · exact Or.inl (Or.inr (hq ▸ hqx.symm))
      · exact Or.inr ((hasKey_eq ps x).mpr ⟨q, hq, hqx⟩)

/-- The key set of the context handed to a callable: the running context
plus every key of every direct dependency's result dict. -/
theorem hasKey_mergedContext {V : Type} (tasks : List (TaskNode V))
    (task : TaskNode V) :
    ∀ (c : Ctx V) (x : String),
      hasKey (mergedContext tasks c task) x = true ↔
        (hasKey c x = true ∨
          ∃ d ∈ task.depends_on, hasKey (resultOf tasks d) x = true) := by
  have hgen : ∀ (ds : List String) (c : Ctx V) (x : String),
      hasKey (ds.foldl (fun c dep => dictUpdate c (resultOf tasks dep)) c) x = true ↔
        (hasKey c x = true ∨ ∃ d ∈ ds, hasKey (resultOf tasks d) x = true) := by
    intro ds
    induction ds with
    | nil => intro c x; simp
    | cons d0 ds ih =>
      intro c x
      rw [List.foldl_cons, ih, hasKey_dictUpdate]
      constructor
      · rintro ((h | h) | ⟨d, hd, hdx⟩)
        · exact Or.inl h
        · exact Or.inr ⟨d0, List.mem_cons_self _ _, h⟩
        · exact Or.inr ⟨d, List.mem_cons_of_mem _ hd, hdx⟩
      · rintro (h | ⟨d, hd, hdx⟩)
        · exact Or.inl (Or.inl h)
        · rcases List.mem_cons.mp hd with rfl | hd2
          · exact Or.inl (Or.inr hdx)
          · exact Or.inr ⟨d, hd2, hdx⟩
  intro c x
  exact hgen task.depends_on c x

/-- One run-loop step never loses context keys. -/
theorem runStep_ctx_mono {V : Type} (tasks : List (TaskNode V)) (c : Ctx V)
    (e : List (String × SummaryEntry)) (n : String) {x : String}
    (h : hasKey c x = true) : hasKey (runStep tasks c e n).2.1 x = true := by
  rcases hfind : findTask tasks n with _ | task
  · rw [runStep_none hfind]
    exact h
  · by_cases hfail : task.depends_on.any
        (fun dep => decide (statusOf tasks dep = .failed)) = true
    · rw [runStep_skip hfind hfail]
      exact h
    · rcases hex : task.execute_fn (mergedContext tasks c task) with msg | r
      · rw [runStep_error hfind (Bool.not_eq_true _ ▸ hfail) hex]
        exact (hasKey_mergedContext tasks task c x).mpr (Or.inl h)
      · rw [runStep_ok hfind (Bool.not_eq_true _ ▸ hfail) hex]
        exact (hasKey_mergedContext tasks task c x).mpr (Or.inl h)

/-- The run loop never loses context keys. -/
theorem runLoop_ctx_mono {V : Type} :
    ∀ (order : List String) (tasks : List (TaskNode V)) (c : Ctx V)
      (e : List (String × SummaryEntry)) {x : String},
      hasKey c x = true → hasKey (runLoop order tasks c e).2.1 x = true := by
  intro order
  induction order with
  | nil => intro tasks c e x h; exact h
  | cons n rest ih =>
    intro tasks c e x h
    exact ih (runStep tasks c e n).1 (runStep tasks c e n).2.1
      (runStep tasks c e n).2.2 (runStep_ctx_mono tasks c e n h)

/-- Lookup of an unrelated name is untouched by node replacement. -/
theorem findTask_setTask_ne {V : Type} {tasks : List (TaskNode V)}
    {m n : String} {t2 : TaskNode V} (hmn : m ≠ n) (hname : t2.name = m) :
    findTask (setTask tasks m t2) n = findTask tasks n := by
  induction tasks with
  | nil => rfl
  | cons t0 rest ih =>
    by_cases h0 : t0.name = m
    · unfold setTask findTask
      simp only [List.map_cons, if_pos h0]
      rw [List.find?_cons_of_neg _ (by simp [hname, hmn]),
        List.find?_cons_of_neg _ (by simp [h0, hmn])]
      exact ih
    · unfold setTask findTask
      simp only [List.map_cons, if_neg h0]
      by_cases hn0 : t0.name = n
      · rw [List.find?_cons_of_pos _ (by simp [hn0]),
          List.find?_cons_of_pos _ (by simp [hn0])]
      · rw [List.find?_cons_of_neg _ (by simp [hn0]),
          List.find?_cons_of_neg _ (by simp [hn0])]
        exact ih

/-- One run-loop step leaves every other node's state alone. -/
theorem runStep_find_other {V : Type} (tasks : List (TaskNode V)) (c : Ctx V)
    (e : List (String × SummaryEntry)) {m n : String} (hmn : m ≠ n) :
    findTask (runStep tasks c e m).1 n = findTask tasks n := by
  rcases hfind : findTask tasks m with _ | task
  · rw [runStep_none hfind]
  · have hname := (findTask_spec hfind).2
    by_cases hfail : task.depends_on.any
        (fun dep => decide (statusOf tasks dep = .failed)) = true
    · rw [runStep_skip hfind hfail]
      exact findTask_setTask_ne hmn hname
    · rcases hex : task.execute_fn (mergedContext tasks c task) with msg | r
      · rw [runStep_error hfind (Bool.not_eq_true _ ▸ hfail) hex]
        exact findTask_setTask_ne hmn hname
      · rw [runStep_ok hfind (Bool.not_eq_true _ ▸ hfail) hex]
        exact findTask_setTask_ne hmn hname

/-- A node absent from the remaining schedule keeps its state. -/
theorem runLoop_find_notin {V : Type} :
    ∀ (order : List String) (tasks : List (TaskNode V)) (c : Ctx V)
      (e : List (String × SummaryEntry)) {n : String}, n ∉ order →
      findTask (runLoop order tasks c e).1 n = findTask tasks n := by
  intro order
  induction order with
  | nil => intro tasks c e n _; rfl
  | cons m rest ih =>
    intro tasks c e n hnot
    have hmn : m ≠ n := fun h => hnot (h ▸ List.mem_cons_self _ _)
    have hrest : n ∉ rest := fun h => hnot (List.mem_cons_of_mem _ h)
    show findTask (runLoop rest (runStep tasks c e m).1 (runStep tasks c e m).2.1
      (runStep tasks c e m).2.2).1 n = findTask tasks n
    rw [ih _ _ _ hrest, runStep_find_other tasks c e hmn]

/-- The run loop splits along a split of the schedule. -/
theorem runLoop_append {V : Type} :
    ∀ (l1 l2 : List String) (tasks : List (TaskNode V)) (c : Ctx V)
      (e : List (String × SummaryEntry)),
      runLoop (l1 ++ l2) tasks c e =
        runLoop l2 (runLoop l1 tasks c e).1 (runLoop l1 tasks c e).2.1
          (runLoop l1 tasks c e).2.2 := by
  intro l1
  induction l1 with
  | nil => intro l2 tasks c e; rfl
  | cons m rest ih =>
    intro l2 tasks c e
    show runLoop (rest ++ l2) (runStep tasks c e m).1 (runStep tasks c e m).2.1
        (runStep tasks c e m).2.2 = _
    rw [ih]
    rfl

/-- A scheduling pass with an emitted order implies all dependencies
resolve. -/
theorem sort_ok_resolves {V : Type} {g : DAG V} {order : List String}
    (h : g.topological_sort = .ok order) :
    ∀ t ∈ g.tasks, ∀ d ∈ t.depends_on, d ∈ taskNames g.tasks := by
  intro t ht d hd
  by_contra hnot
  rcases buildInDegrees_error g.tasks g.tasks (fun _ => 0) ⟨t, ht, d, hd, hnot⟩
    with ⟨t2, d2, herr, _, _, _⟩
  unfold DAG.topological_sort at h
  rw [herr] at h
  exact absurd h (by simp)

/-- Prefixes and suffixes of a duplicate-free order do not share names. -/
theorem nodup_take_drop {l : List String} (h : l.Nodup) (i : Nat) :
    ∀ x ∈ l.take i, x ∉ l.drop i := by
  have h2 := h
  rw [← List.take_append_drop i l, List.nodup_append] at h2
  exact fun x hx => h2.2.2 hx

/-- Status lookup of a node absent from the remaining schedule. -/
theorem statusOf_runLoop_notin {V : Type} (order : List String)
    (tasks : List (TaskNode V)) (c : Ctx V)
    (e : List (String × SummaryEntry)) (n : String) (h : n ∉ order) :
    statusOf (runLoop order tasks c e).1 n = statusOf tasks n := by
  unfold statusOf
  rw [runLoop_find_notin _ _ _ _ h]

/-- Result lookup of a node absent from the remaining schedule. -/
theorem resultOf_runLoop_notin {V : Type} (order : List String)
    (tasks : List (TaskNode V)) (c : Ctx V)
    (e : List (String × SummaryEntry)) (n : String) (h : n ∉ order) :
    resultOf (runLoop order tasks c e).1 n = resultOf tasks n := by
  unfold resultOf
  rw [runLoop_find_notin _ _ _ _ h]

/-- A skipped step records SKIPPED on the node itself. -/
theorem statusOf_runStep_skip {V : Type} {tasks : List (TaskNode V)}
    {c : Ctx V} {e : List (String × SummaryEntry)} {n : String}
    {task : TaskNode V} (hfind : findTask tasks n = some task)
    (hfail : task.depends_on.any
      (fun dep => decide (statusOf tasks dep = .failed)) = true) :
    statusOf (runStep tasks c e n).1 n = .skipped := by
  rw [runStep_skip hfind hfail]
  dsimp only
  unfold statusOf
  rw [findTask_setTask_self
    ⟨task.name, task.execute_fn, task.depends_on, .skipped,
      task.result, task.error, task.duration_ms⟩ hfind (findTask_spec hfind).2]

/-- A successful step stores the returned dict as the node's result. -/
theorem resultOf_runStep_ok {V : Type} {tasks : List (TaskNode V)}
    {c : Ctx V} {e : List (String × SummaryEntry)} {n : String}
    {task : TaskNode V} {r : Option (Ctx V)}
    (hfind : findTask tasks n = some task)
    (hfail : task.depends_on.any
      (fun dep => decide (statusOf tasks dep = .failed)) = false)
    (hex : task.execute_fn (mergedContext tasks c task) = .ok r) :
    resultOf (runStep tasks c e n).1 n = r.getD [] := by
  rw [runStep_ok hfind hfail hex]
  dsimp only
  unfold resultOf
  rw [findTask_setTask_self
    ⟨task.name, task.execute_fn, task.depends_on, .success,
      r.getD [], task.error, 0⟩ hfind (findTask_spec hfind).2]

/-- C10: one mutable context is shared across the whole run.  Before a
node is invoked its direct dependencies' results are merged into this
shared context, which at that point already holds the initial context
and every result merged for any node visited earlier.  Observed through
a node v whose callable returns the context it receives (so its stored
result is exactly the mapping passed to its logic): for any node u
visited at or before v and not skipped, v's result carries every key of
the initial context and every key of the final result of every direct
dependency of u — in particular keys of nodes that are not among v's
own dependencies. -/
theorem claim_C10 {V : Type} (g : DAG V) (c0 : Ctx V)
    (hn : (taskNames g.tasks).Nodup) {order : List String}
    (horder : g.topological_sort = .ok order)
    {i j : Nat} (hi : i < order.length) (hj : j < order.length) (hij : i ≤ j)
    {tu tv : TaskNode V}
    (hu : findTask g.tasks (order.get ⟨i, hi⟩) = some tu)
    (hv : findTask g.tasks (order.get ⟨j, hj⟩) = some tv)
    (hcap : tv.execute_fn = fun ctx => Except.ok (some ctx))
    (huns : statusOf (g.run c0).2.tasks (order.get ⟨i, hi⟩) ≠ .skipped)
    (hvns : statusOf (g.run c0).2.tasks (order.get ⟨j, hj⟩) ≠ .skipped) :
    (∀ k, hasKey c0 k = true →
        hasKey (resultOf (g.run c0).2.tasks (order.get ⟨j, hj⟩)) k = true) ∧
      ∀ d ∈ tu.depends_on, ∀ k,
        hasKey (resultOf (g.run c0).2.tasks d) k = true →
        hasKey (resultOf (g.run c0).2.tasks (order.get ⟨j, hj⟩)) k = true := by
  obtain ⟨hnodup, hsorted⟩ : order.Nodup ∧
      (∀ (k : Nat) (hk : k < order.length),
        depsDone g.tasks (order.take k) (order.get ⟨k, hk⟩)) := by
    rcases topological_sort_cases g hn (sort_ok_resolves horder) with
      ⟨order2, hok2, hnd2, _, hsorted2, _⟩ | ⟨herr, _⟩
    · rw [horder] at hok2
      obtain rfl := Except.ok.inj hok2
      exact ⟨hnd2, hsorted2⟩
    · rw [horder] at herr
      exact absurd herr (by simp)
  have hFT : (g.run c0).2.tasks = (runLoop order g.tasks c0 []).1 := by
    rw [run_eq_of_sort_ok horder]
  have huname : tu.name = order.get ⟨i, hi⟩ := (findTask_spec hu).2
  have hvname : tv.name = order.get ⟨j, hj⟩ := (findTask_spec hv).2
  have hvdrop : order.get ⟨j, hj⟩ ∈ order.drop j := by
    rw [List.drop_eq_get_cons hj]
    exact List.mem_cons_self _ _
  have hv_not_take : order.get ⟨j, hj⟩ ∉ order.take j :=
    fun hmem => nodup_take_drop hnodup j _ hmem hvdrop
  have htakej1 : order.take (j + 1) = order.take j ++ [order.get ⟨j, hj⟩] := by
    rw [List.take_succ, List.getElem?_eq_getElem hj]
    simp
  have hv_not_drop1 : order.get ⟨j, hj⟩ ∉ order.drop (j + 1) := by
    refine nodup_take_drop hnodup (j + 1) _ ?_
    rw [htakej1]
    exact List.mem_append_right _ (List.mem_singleton_self _)
  have hsplitj : order = order.take j ++
      (order.get ⟨j, hj⟩ :: order.drop (j + 1)) := by
    rw [← List.drop_eq_get_cons hj]
    exact (List.take_append_drop j order).symm
  -- state before v's step
  have hRL : runLoop order g.tasks c0 [] =
      runLoop (order.drop (j + 1))
        (runStep (runLoop (order.take j) g.tasks c0 []).1
          (runLoop (order.take j) g.tasks c0 []).2.1
          (runLoop (order.take j) g.tasks c0 []).2.2 (order.get ⟨j, hj⟩)).1
        (runStep (runLoop (order.take j) g.tasks c0 []).1
          (runLoop (order.take j) g.tasks c0 []).2.1
          (runLoop (order.take j) g.tasks c0 []).2.2 (order.get ⟨j, hj⟩)).2.1
        (runStep (runLoop (order.take j) g.tasks c0 []).1
          (runLoop (order.take j) g.tasks c0 []).2.1
          (runLoop (order.take j) g.tasks c0 []).2.2 (order.get ⟨j, hj⟩)).2.2 := by
    conv_lhs => rw [hsplitj]
    rw [runLoop_append]
    rfl
  have hfindv : findTask (runLoop (order.take j) g.tasks c0 []).1
      (order.get ⟨j, hj⟩) = some tv := by
    rw [runLoop_find_notin _ _ _ _ hv_not_take]
    exact hv
  -- v is executed (not skipped), on the merged shared context
  have hvrun : resultOf (g.run c0).2.tasks (order.get ⟨j, hj⟩) =
      mergedContext (runLoop (order.take j) g.tasks c0 []).1
        (runLoop (order.take j) g.tasks c0 []).2.1 tv := by
    by_cases hfailv : tv.depends_on.any (fun dep =>
        decide (statusOf (runLoop (order.take j) g.tasks c0 []).1 dep
          = .failed)) = true
    · exfalso
      apply hvns
      rw [hFT, hRL, statusOf_runLoop_notin _ _ _ _ _ hv_not_drop1]
      exact statusOf_runStep_skip hfindv hfailv
    · have hexv : tv.execute_fn (mergedContext
          (runLoop (order.take j) g.tasks c0 []).1
          (runLoop (order.take j) g.tasks c0 []).2.1 tv) =
          .ok (some (mergedContext (runLoop (order.take j) g.tasks c0 []).1
            (runLoop (order.take j) g.tasks c0 []).2.1 tv)) := by
        rw [hcap]
      rw [hFT, hRL, resultOf_runLoop_notin _ _ _ _ _ hv_not_drop1]
      exact resultOf_runStep_ok hfindv (Bool.not_eq_true _ ▸ hfailv) hexv
  refine ⟨?_, ?_⟩
  · intro k hk
    rw [hvrun, hasKey_mergedContext]
    exact Or.inl (runLoop_ctx_mono (order.take j) g.tasks c0 [] hk)
  · intro d hd k hk
    rcases Nat.lt_or_ge i j with hlt | hge
    · -- u is visited strictly before v
      have hudrop : order.get ⟨i, hi⟩ ∈ order.drop i := by
        rw [List.drop_eq_get_cons hi]
        exact List.mem_cons_self _ _
      have hu_not_take : order.get ⟨i, hi⟩ ∉ order.take i :=
        fun hmem => nodup_take_drop hnodup i _ hmem hudrop
      have htakei1 : order.take (i + 1) = order.take i ++ [order.get ⟨i, hi⟩] := by
        rw [List.take_succ, List.getElem?_eq_getElem hi]
        simp
      have hu_not_drop1 : order.get ⟨i, hi⟩ ∉ order.drop (i + 1) := by
        refine nodup_take_drop hnodup (i + 1) _ ?_
        rw [htakei1]
        exact List.mem_append_right _ (List.mem_singleton_self _)
      have hfindu : findTask (runLoop (order.take i) g.tasks c0 []).1
          (order.get ⟨i, hi⟩) = some tu := by
        rw [runLoop_find_notin _ _ _ _ hu_not_take]
        exact hu
      -- take j splits as take i, then u, then the span up to j
      have htake_split : order.take j = (order.take i ++ [order.get ⟨i, hi⟩]) ++
          (order.drop (i + 1)).take (j - (i + 1)) := by
        rw [← htakei1, ← List.take_add]
        congr 1
        omega
      have hS1 : runLoop (order.take j) g.tasks c0 [] =
          runLoop ((order.drop (i + 1)).take (j - (i + 1)))
            (runStep (runLoop (order.take i) g.tasks c0 []).1
              (runLoop (order.take i) g.tasks c0 []).2.1
              (runLoop (order.take i) g.tasks c0 []).2.2 (order.get ⟨i, hi⟩)).1
            (runStep (runLoop (order.take i) g.tasks c0 []).1
              (runLoop (order.take i) g.tasks c0 []).2.1
              (runLoop (order.take i) g.tasks c0 []).2.2 (order.get ⟨i, hi⟩)).2.1
            (runStep (runLoop (order.take i) g.tasks c0 []).1
              (runLoop (order.take i) g.tasks c0 []).2.1
              (runLoop (order.take i) g.tasks c0 []).2.2 (order.get ⟨i, hi⟩)).2.2 := by
        conv_lhs => rw [htake_split]
        rw [runLoop_append, runLoop_append]
        rfl
      -- u's step merges the final results of u's dependencies
      have hd_take : d ∈ order.take i :=
        hsorted i hi tu (findTask_spec hu).1 huname d hd
      have hd_stable : resultOf (g.run c0).2.tasks d =
          resultOf (runLoop (order.take i) g.tasks c0 []).1 d := by
        unfold resultOf
        rw [hFT]
        conv_lhs => rw [show order = order.take i ++ order.drop i from
          (List.take_append_drop i order).symm]
        rw [runLoop_append,
          runLoop_find_notin _ _ _ _ (nodup_take_drop hnodup i d hd_take)]
      -- the context after u's step holds every key of those results
      have hctx_after_u : ∀ k2, hasKey (resultOf
            (runLoop (order.take i) g.tasks c0 []).1 d) k2 = true →
          hasKey (runStep (runLoop (order.take i) g.tasks c0 []).1
            (runLoop (order.take i) g.tasks c0 []).2.1
            (runLoop (order.take i) g.tasks c0 []).2.2
            (order.get ⟨i, hi⟩)).2.1 k2 = true := by
        intro k2 hk2
        have hRLi : runLoop order g.tasks c0 [] =
            runLoop (order.drop (i + 1))
              (runStep (runLoop (order.take i) g.tasks c0 []).1
                (runLoop (order.take i) g.tasks c0 []).2.1
                (runLoop (order.take i) g.tasks c0 []).2.2 (order.get ⟨i, hi⟩)).1
              (runStep (runLoop (order.take i) g.tasks c0 []).1
                (runLoop (order.take i) g.tasks c0 []).2.1
                (runLoop (order.take i) g.tasks c0 []).2.2 (order.get ⟨i, hi⟩)).2.1
              (runStep (runLoop (order.take i) g.tasks c0 []).1
                (runLoop (order.take i) g.tasks c0 []).2.1
                (runLoop (order.take i) g.tasks c0 []).2.2
                (order.get ⟨i, hi⟩)).2.2 := by
          conv_lhs => rw [show order = (order.take i ++ [order.get ⟨i, hi⟩]) ++
            order.drop (i + 1) by
              rw [← htakei1]
              exact (List.take_append_drop (i + 1) order).symm]
          rw [runLoop_append, runLoop_append]
          rfl
        by_cases hfailu : tu.depends_on.any (fun dep =>
            decide (statusOf (runLoop (order.take i) g.tasks c0 []).1 dep
              = .failed)) = true
        · exfalso
          apply huns
          rw [hFT, hRLi, statusOf_runLoop_notin _ _ _ _ _ hu_not_drop1]
          exact statusOf_runStep_skip hfindu hfailu
        · rcases hexu : tu.execute_fn (mergedContext
              (runLoop (order.take i) g.tasks c0 []).1
              (runLoop (order.take i) g.tasks c0 []).2.1 tu) with msg | r
          · rw [runStep_error hfindu (Bool.not_eq_true _ ▸ hfailu) hexu]
            dsimp only
            rw [hasKey_mergedContext]
            exact Or.inr ⟨d, hd, hk2⟩
          · rw [runStep_ok hfindu (Bool.not_eq_true _ ▸ hfailu) hexu]
            dsimp only
            rw [hasKey_mergedContext]
            exact Or.inr ⟨d, hd, hk2⟩
      rw [hvrun, hasKey_mergedContext]
      refine Or.inl ?_
      rw [hS1]
      refine runLoop_ctx_mono _ _ _ _ ?_
      refine hctx_after_u k ?_
      rw [← hd_stable]
      exact hk
    · -- u = v: the dependency's result is merged at v's own step
      have hij2 : i = j := by omega
      subst hij2
      obtain rfl : tu = tv := by
        rw [hu] at hv
        exact Option.some.inj hv
      have hd_take : d ∈ order.take i :=
        hsorted i hi tu (findTask_spec hu).1 huname d hd
      have hd_stable : resultOf (g.run c0).2.tasks d =
          resultOf (runLoop (order.take i) g.tasks c0 []).1 d := by
        unfold resultOf
        rw [hFT]
        conv_lhs => rw [show order = order.take i ++ order.drop i from
          (List.take_append_drop i order).symm]
        rw [runLoop_append,
          runLoop_find_notin _ _ _ _ (nodup_take_drop hnodup i d hd_take)]
      rw [hvrun, hasKey_mergedContext]
      refine Or.inr ⟨d, hd, ?_⟩
      rw [← hd_stable]
      exact hk

/-- Witness for C10 on gObserve: c depends only on b, its callable
returns the context it receives, and after the run c's stored result
carries both the initial key "init" and the key "ka" published by a —
a node that is not among c's dependencies. -/
theorem claim_C10_witness :
    ((∀ k, hasKey [("init", 7)] k = true →
        hasKey (resultOf (gObserve.run [("init", 7)]).2.tasks "c") k = true) ∧
      ∀ d ∈ (mkTask "b" (fun _ => (Except.ok (some []) :
          Except String (Option (Ctx Nat)))) ["a"]).depends_on, ∀ k,
        hasKey (resultOf (gObserve.run [("init", 7)]).2.tasks d) k = true →
        hasKey (resultOf (gObserve.run [("init", 7)]).2.tasks "c") k = true) ∧
    hasKey (resultOf (gObserve.run [("init", 7)]).2.tasks "c") "init" = true ∧
    hasKey (resultOf (gObserve.run [("init", 7)]).2.tasks "c") "ka" = true ∧
    "a" ∉ (mkTask "c" (fun c => (Except.ok (some c) :
      Except String (Option (Ctx Nat)))) ["b"]).depends_on := by
  have h := @claim_C10 Nat gObserve [("init", 7)] (by decide)
    ["a", "b", "c"] rfl 1 2 (by decide) (by decide) (by omega)
    (mkTask "b" (fun _ => .ok (some [])) ["a"])
    (mkTask "c" (fun c => .ok (some c)) ["b"])
    rfl rfl rfl (by decide) (by decide)
  refine ⟨h, h.1 "init" rfl, ?_, by decide⟩
  exact h.2 "a" (List.mem_cons_self _ _) "ka" rfl

end EtlDag
